import Mathlib

/-!
Verification of the semantic-tag core of the obsidian-semantic-ai plugin:
the tag codec (tag-writer), the concept registry (concept-registry) and the
vault indexer (vault-indexer).  JavaScript strings are modelled as `List Char`,
JavaScript object/Map key orders as association lists in insertion order, and
the random UUID supply of the registry as a counter threaded through the state.
-/

set_option maxHeartbeats 1000000

namespace SemanticAI

/-! ### JavaScript string primitives -/

/-- Whitespace characters recognised by the JavaScript `trim`/`\s` operations
(restricted to the ASCII range used by the plugin's data). -/
def isJsWs (c : Char) : Bool :=
  c == ' ' || c == '\t' || c == '\n' || c == '\r' || c == '\x0b' || c == '\x0c'

/-- `String.prototype.toLowerCase`, character by character. -/
def lowerStr (l : List Char) : List Char := l.map Char.toLower

/-- Remove leading whitespace. -/
def trimStart (l : List Char) : List Char := l.dropWhile isJsWs

/-- `String.prototype.trimEnd`: remove trailing whitespace. -/
def trimEndL (l : List Char) : List Char := l.rdropWhile isJsWs

/-- `String.prototype.trim`. -/
def jsTrim (l : List Char) : List Char := trimStart (trimEndL l)

/-- A character matching the regex class `\w`, i.e. `[A-Za-z0-9_]`. -/
def isWordChar (c : Char) : Bool := c.isAlphanum || c == '_'

/-- `replace(/\s+/g, ' ')`: every maximal run of whitespace becomes one space.
Written with structural recursion: a whitespace character emits a space only
when it is the last character of its run. -/
def collapseWs : List Char → List Char
  | [] => []
  | c :: cs =>
    if isJsWs c then
      match cs.head? with
      | some c2 => if isJsWs c2 then collapseWs cs else ' ' :: collapseWs cs
      | none => [' ']
    else c :: collapseWs cs

/-- `startsWith` on character lists (also used for `String.prototype.startsWith`). -/
def startsWithL : List Char → List Char → Bool
  | [], _ => true
  | _ :: _, [] => false
  | a :: as, b :: bs => a == b && startsWithL as bs

/-- `String.prototype.indexOf` for a substring: index of the first occurrence. -/
def firstIdx (m : List Char) : List Char → Option Nat
  | [] => if startsWithL m [] then some 0 else none
  | c :: cs =>
    if startsWithL m (c :: cs) then some 0
    else (firstIdx m cs).map (· + 1)

/-- `String.prototype.includes`. -/
def containsSub (m s : List Char) : Bool := (firstIdx m s).isSome

/-- `String.prototype.split('\n')`. -/
def splitLines : List Char → List (List Char)
  | [] => [[]]
  | c :: cs =>
    if c = '\n' then [] :: splitLines cs
    else
      match splitLines cs with
      | [] => [[c]]
      | l :: ls => (c :: l) :: ls

/-- Insertion-order deduplication, the observable content of a JavaScript `Set`
built by repeated `add` in iteration order (first occurrence wins). -/
def jsSetDedup {α : Type} [DecidableEq α] : List α → List α
  | [] => []
  | a :: as => a :: (jsSetDedup as).filter (· ≠ a)

/-- First-match association-list lookup: JavaScript object property access /
`Map.prototype.get`. -/
def alookup {α : Type} [DecidableEq α] {β : Type} (k : α) : List (α × β) → Option β
  | [] => none
  | p :: rest => if p.1 = k then some p.2 else alookup k rest

/-- `Map.prototype.set` / object property assignment: replace the value at an
existing key in place, otherwise append the new key at the end. -/
def mapSet {α : Type} [DecidableEq α] {β : Type} : List (α × β) → α → β → List (α × β)
  | [], k, v => [(k, v)]
  | p :: rest, k, v =>
    if p.1 = k then (p.1, v) :: rest else p :: mapSet rest k v

/-! ### Label normalization (the two independent copies in the source) -/

namespace ConceptRegistry

/-- `ConceptRegistry.normalizeLabel`: lowercase, trim, strip every character
outside `\w`, whitespace and hyphen, collapse whitespace runs, trim again. -/
def normalizeLabel (label : List Char) : List Char :=
  jsTrim (collapseWs ((jsTrim (lowerStr label)).filter
    (fun c => isWordChar c || isJsWs c || c == '-')))

end ConceptRegistry

namespace VaultIndexer

/-- `VaultIndexer.normalizeLabel`: lowercase, trim, strip every character outside
`\w` and whitespace, collapse whitespace runs.  Unlike the registry's copy it
also strips hyphens and does not trim a second time. -/
def normalizeLabel (label : List Char) : List Char :=
  collapseWs ((jsTrim (lowerStr label)).filter (fun c => isWordChar c || isJsWs c))

end VaultIndexer

/-! ### Tag codec (tag-writer.ts) -/

/-- A semantic tag.  The TypeScript `type` field is a string union that
`parseTags` populates by casting the raw matched text, so it is modelled as a
raw character list; `customType` and `parentUuid` are optional strings. -/
structure SemanticTag where
  type : List Char
  uuid : List Char
  label : List Char
  parentUuid : Option (List Char)
  customType : Option (List Char)
deriving DecidableEq, Repr

/-- A tag matched in a document: the raw matched fragment, the tag, and the
1-based line number. -/
structure ParsedTag where
  raw : List Char
  tag : SemanticTag
  lineNumber : Nat
deriving DecidableEq, Repr

def TAG_BLOCK_START : List Char := "\n\n%%--- SEMANTIC TAGS ---%%\n".data

def TAG_BLOCK_END : List Char := "\n%%--- END SEMANTIC TAGS ---%%".data

/-- The marker `hasTagBlock`/`extractTagBlock` search for. -/
def startMarker : List Char := "%%--- SEMANTIC TAGS ---%%".data

/-- The marker `removeTagBlock` searches for (it includes the two leading
newlines of `TAG_BLOCK_START`). -/
def removeStartMarker : List Char := "\n\n%%--- SEMANTIC TAGS ---%%".data

def endMarker : List Char := "%%--- END SEMANTIC TAGS ---%%".data

/-- `formatTag`: render one tag as
`%%tag::TYPE::UUID::"Label"::parentOrNull%%`.  A falsy (`undefined` or empty)
`customType` falls back to `type`; a falsy (`null` or empty) `parentUuid`
renders as `null`. -/
def formatTag (t : SemanticTag) : List Char :=
  let typePart : List Char :=
    match t.customType with
    | some c => if c = [] then t.type else "Custom:".data ++ c
    | none => t.type
  let parentPart : List Char :=
    match t.parentUuid with
    | some p => if p = [] then "null".data else p
    | none => "null".data
  "%%tag::".data ++ typePart ++ "::".data ++ t.uuid ++ "::\"".data ++ t.label
    ++ "\"::".data ++ parentPart ++ "%%".data

/-- Drop a literal from the front of a list, or fail. -/
def dropLit (m s : List Char) : Option (List Char) :=
  if startsWithL m s then some (s.drop m.length) else none

/-- Attempt to match `TAG_REGEX` (`%%tag::([^:]+)::([^:]+)::"([^"]+)"::([^%]*)%%`)
at the start of `s`.  Every capture group is a maximal run excluding the
character that starts the following literal, so the backtracking regex is
equivalent to this deterministic reading.  Returns the tag, the raw matched
text and the remainder of the line. -/
def matchTagAt (s : List Char) : Option (SemanticTag × List Char × List Char) := do
  let r0 ← dropLit "%%tag::".data s
  let g1 := r0.takeWhile (fun c => !(c == ':'))
  let r1 := r0.dropWhile (fun c => !(c == ':'))
  if g1 = [] then none else
  let r2 ← dropLit "::".data r1
  let g2 := r2.takeWhile (fun c => !(c == ':'))
  let r3 := r2.dropWhile (fun c => !(c == ':'))
  if g2 = [] then none else
  let r4 ← dropLit "::\"".data r3
  let g3 := r4.takeWhile (fun c => !(c == '"'))
  let r5 := r4.dropWhile (fun c => !(c == '"'))
  if g3 = [] then none else
  let r6 ← dropLit "\"::".data r5
  let g4 := r6.takeWhile (fun c => !(c == '%'))
  let r7 := r6.dropWhile (fun c => !(c == '%'))
  let r8 ← dropLit "%%".data r7
  let tag : SemanticTag :=
    if startsWithL "Custom:".data g1 then
      { type := "Custom".data, uuid := g2, label := g3,
        parentUuid := if g4 = "null".data then none else some g4,
        customType := some (g1.drop "Custom:".data.length) }
    else
      { type := g1, uuid := g2, label := g3,
        parentUuid := if g4 = "null".data then none else some g4,
        customType := none }
  let raw := "%%tag::".data ++ g1 ++ "::".data ++ g2 ++ "::\"".data ++ g3
    ++ "\"::".data ++ g4 ++ "%%".data
  some (tag, raw, r8)

/-- Repeated leftmost matching of `TAG_REGEX` over one line (the
`while exec` loop).  Fuelled for termination; every match consumes at least
one character, so `fuel = s.length` never runs out. -/
def scanTagsFuel : Nat → List Char → List (SemanticTag × List Char)
  | 0, _ => []
  | _ + 1, [] => []
  | fuel + 1, c :: cs =>
    match matchTagAt (c :: cs) with
    | some (t, raw, rest) => (t, raw) :: scanTagsFuel fuel rest
    | none => scanTagsFuel fuel cs

def lineMatches (s : List Char) : List (SemanticTag × List Char) :=
  scanTagsFuel s.length s

/-- `parseTags`: split into lines and collect every regex match with its
1-based line number. -/
def parseTags (content : List Char) : List ParsedTag :=
  ((splitLines content).enum.map
    (fun li => (lineMatches li.2).map
      (fun m => ⟨m.2, m.1, li.1 + 1⟩))).flatten

/-- `hasTagBlock`. -/
def hasTagBlock (content : List Char) : Bool := containsSub startMarker content

/-- `removeTagBlock`. -/
def removeTagBlock (content : List Char) : List Char :=
  match firstIdx removeStartMarker content, firstIdx endMarker content with
  | some si, some ei => content.take si ++ content.drop (ei + endMarker.length)
  | _, _ => content

/-- `createTagBlock`. -/
def createTagBlock (tags : List SemanticTag) : List Char :=
  if tags = [] then []
  else TAG_BLOCK_START ++ (List.intercalate "\n".data (tags.map formatTag)) ++ TAG_BLOCK_END

/-- `writeTags` (the text transformation; persistence is outside the model).
`append = true` is merge mode, `append = false` is replace mode. -/
def writeTags (content : List Char) (tags : List SemanticTag) (append : Bool) : List Char :=
  if append ∧ hasTagBlock content then
    let existingTags := parseTags content
    let existingUuids := existingTags.map (fun pt => pt.tag.uuid)
    let newTags := tags.filter (fun t => ¬ t.uuid ∈ existingUuids)
    let allTags := existingTags.map (fun pt => pt.tag) ++ newTags
    trimEndL (removeTagBlock content) ++ createTagBlock allTags
  else if hasTagBlock content then
    trimEndL (removeTagBlock content) ++ createTagBlock tags
  else
    trimEndL content ++ createTagBlock tags

/-- `removeTags`. -/
def removeTags (content : List Char) (uuidsToRemove : List (List Char)) : List Char :=
  let existingTags := parseTags content
  let remainingTags := (existingTags.filter
    (fun pt => ¬ pt.tag.uuid ∈ uuidsToRemove)).map (fun pt => pt.tag)
  let newContent := removeTagBlock content
  if remainingTags.length > 0 then trimEndL newContent ++ createTagBlock remainingTags
  else newContent

/-- `updateTag`: the `updates` spread is modelled as an arbitrary field rewrite;
the uuid of the matched tag is preserved afterwards, as in the source. -/
def updateTag (content : List Char) (uuid : List Char)
    (updates : SemanticTag → SemanticTag) : List Char :=
  let existingTags := parseTags content
  let updatedTags := existingTags.map (fun pt =>
    if pt.tag.uuid = uuid then { updates pt.tag with uuid := pt.tag.uuid } else pt.tag)
  trimEndL (removeTagBlock content) ++ createTagBlock updatedTags

/-! ### Concept registry (concept-registry.ts)

`generateUUID()` draws fresh random identifiers; it is modelled by a counter
`nextUuid` threaded through the state, so uuids are natural numbers.  The
wall-clock fields (`firstSeenDate`, `lastUpdated`) and the opaque `metadata`
field are omitted: no claim mentions them. -/

namespace ConceptRegistry

/-- `ConceptRegistryEntry`. -/
structure Entry where
  uuid : Nat
  label : List Char
  normalizedLabel : List Char
  type : List Char
  firstSeenFile : List Char
  aliases : List (List Char)
deriving DecidableEq, Repr

/-- The in-memory state of a `ConceptRegistry` instance.  `concepts` and
`uuidIndex` are the two JavaScript objects, kept in insertion order. -/
structure State where
  concepts : List (List Char × Entry)
  uuidIndex : List (Nat × List Char)
  loaded : Bool
  dirty : Bool
  nextUuid : Nat
deriving DecidableEq, Repr

/-- The persisted registry document (`ConceptRegistryData`). -/
structure StoredData where
  version : List Char
  concepts : List (List Char × Entry)
  uuidIndex : List (Nat × List Char)
deriving DecidableEq, Repr

def REGISTRY_VERSION : List Char := "1.0.0".data

/-- A fresh `new ConceptRegistry(vault)`. -/
def emptyState : State := ⟨[], [], false, false, 0⟩

/-- `getOrCreateUUID`: primary-key lookup, then linear alias scan, then mint a
fresh identifier and insert a new entry. -/
def getOrCreateUUID (s : State) (label ty sourceFile : List Char) : Nat × State :=
  let normalized := normalizeLabel label
  match alookup normalized s.concepts with
  | some e => (e.uuid, s)
  | none =>
    match s.concepts.find? (fun pr => normalized ∈ pr.2.aliases) with
    | some pr => (pr.2.uuid, s)
    | none =>
      let uuid := s.nextUuid
      let entry : Entry := ⟨uuid, label, normalized, ty, sourceFile, []⟩
      (uuid, { s with
        concepts := s.concepts ++ [(normalized, entry)],
        uuidIndex := s.uuidIndex ++ [(uuid, normalized)],
        dirty := true,
        nextUuid := s.nextUuid + 1 })

/-- `getUUID`: direct primary-key lookup only (no alias scan). -/
def getUUID (s : State) (label : List Char) : Option Nat :=
  (alookup (normalizeLabel label) s.concepts).map (fun e => e.uuid)

/-- `getByUUID`. -/
def getByUUID (s : State) (uuid : Nat) : Option Entry :=
  match alookup uuid s.uuidIndex with
  | some n => alookup n s.concepts
  | none => none

/-- `addAlias`: false when the label has no entry, otherwise add the normalized
alias, deduplicated. -/
def addAlias (s : State) (label aliasLabel : List Char) : Bool × State :=
  let normalized := normalizeLabel label
  let normalizedAlias := normalizeLabel aliasLabel
  match alookup normalized s.concepts with
  | none => (false, s)
  | some e =>
    if normalizedAlias ∈ e.aliases then (true, s)
    else (true, { s with
      concepts := mapSet s.concepts normalized
        { e with aliases := e.aliases ++ [normalizedAlias] },
      dirty := true })

/-- `mergeConcepts`: push the merged key and its aliases onto the kept entry,
deduplicate, delete the merged entry's reverse-index record and its key. -/
def mergeConcepts (s : State) (keepLabel mergeLabel : List Char) : Bool × State :=
  let keepNorm := normalizeLabel keepLabel
  let mergeNorm := normalizeLabel mergeLabel
  match alookup keepNorm s.concepts, alookup mergeNorm s.concepts with
  | some keepEntry, some mergeEntry =>
    let newAliases := jsSetDedup (keepEntry.aliases ++ [mergeNorm] ++ mergeEntry.aliases)
    let concepts1 := mapSet s.concepts keepNorm { keepEntry with aliases := newAliases }
    (true, { s with
      concepts := concepts1.filter (fun pr => pr.1 ≠ mergeNorm),
      uuidIndex := s.uuidIndex.filter (fun pr => pr.1 ≠ mergeEntry.uuid),
      dirty := true })
  | _, _ => (false, s)

/-- What `save` writes to disk. -/
def persist (s : State) : StoredData := ⟨REGISTRY_VERSION, s.concepts, s.uuidIndex⟩

/-- Install parsed file content into the instance (`load` with an existing
file): version check runs the migration hook, which marks dirty. -/
def installData (s : State) (d : StoredData) : State :=
  if d.version = REGISTRY_VERSION then
    { s with concepts := d.concepts, uuidIndex := d.uuidIndex, loaded := true }
  else
    { s with concepts := d.concepts, uuidIndex := d.uuidIndex, loaded := true, dirty := true }

/-- `save`: no-op when clean and loaded, otherwise write and clear dirty. -/
def save (s : State) (stored : Option StoredData) : State × Option StoredData :=
  if s.dirty = false ∧ s.loaded = true then (s, stored)
  else ({ s with dirty := false }, some (persist s))

/-- `load`: read the file when present; otherwise install an empty registry and
persist it immediately. -/
def load (s : State) (stored : Option StoredData) : State × Option StoredData :=
  match stored with
  | some d => (installData s d, stored)
  | none =>
    let s1 : State := { s with concepts := [], uuidIndex := [] }
    let p := save s1 stored
    ({ p.1 with loaded := true }, p.2)

/-- The registry operations claim C1 quantifies over: `getOrCreateUUID` calls
in any order, and save-followed-by-load round trips. -/
inductive Op where
  | getOrCreate (label ty sourceFile : List Char)
  | saveLoad
deriving DecidableEq, Repr

def applyOp : State × Option StoredData → Op → State × Option StoredData
  | (s, st), Op.getOrCreate label ty src => ((getOrCreateUUID s label ty src).2, st)
  | (s, st), Op.saveLoad =>
    let p := save s st
    load p.1 p.2

def applyOps (p : State × Option StoredData) (ops : List Op) : State × Option StoredData :=
  ops.foldl applyOp p

/-- The resolution `getOrCreateUUID` performs without mutating a concepts
table: primary key first, then first entry owning the alias. -/
def resolveIn (concepts : List (List Char × Entry)) (n : List Char) : Option Nat :=
  match alookup n concepts with
  | some e => some e.uuid
  | none => (concepts.find? (fun pr => n ∈ pr.2.aliases)).map (fun pr => pr.2.uuid)

/-- The resolution `getOrCreateUUID` performs without mutating. -/
def resolvesTo (s : State) (n : List Char) : Option Nat :=
  resolveIn s.concepts n

/-- A clean, loaded registry instance agrees with the persisted file (true of
every state the plugin can reach; mutations set dirty, `save` re-syncs). -/
def StoreInv (s : State) (stored : Option StoredData) : Prop :=
  s.dirty = false → s.loaded = true → stored = some (persist s)

end ConceptRegistry

/-- The first occurrence of `m` in `s` starts exactly at index `n`. -/
def firstOccAt (m s : List Char) (n : Nat) : Prop :=
  startsWithL m (s.drop n) = true ∧ ∀ k < n, ¬ startsWithL m (s.drop k) = true

instance (m s : List Char) (n : Nat) : Decidable (firstOccAt m s n) := by
  unfold firstOccAt
  infer_instance

/-! ### Vault indexer (vault-indexer.ts)

The cooperative abort signal flips asynchronously during awaits; it is modelled
by `abortAfter`: the flag reads true at a check once at least that many
documents have been processed (`none` = never aborted).  Wall-clock fields
(`lastUpdated`, `processingTimeMs`, `estimatedTokens`, `firstSeen.date`) are
omitted; the float `relationshipStrength` is modelled as an exact rational. -/

namespace VaultIndexer

/-- `IndexerConfig`. -/
structure Config where
  maxFiles : Nat
  maxRelationFiles : Nat
  batchSize : Nat
  excludePatterns : List (List Char)
deriving DecidableEq, Repr

/-- `DEFAULT_CONFIG` (without the timing-only `batchDelayMs`). -/
def DEFAULT_CONFIG : Config :=
  ⟨1000, 200, 50,
    [".obsidian".data, "node_modules".data, ".git".data, "_archive".data,
      "_Archive".data, ".trash".data, "Trash".data]⟩

/-- A markdown file of the vault: path, basename, current text. -/
structure MdFile where
  path : List Char
  name : List Char
  content : List Char
deriving DecidableEq, Repr

/-- `ConceptOccurrence` (the optional `context` field is never set by the
indexer). -/
structure ConceptOccurrence where
  filePath : List Char
  fileName : List Char
  tagUuid : List Char
  tagType : List Char
  label : List Char
  lineNumber : Nat
deriving DecidableEq, Repr

/-- `ConceptEntry`. -/
structure ConceptEntry where
  label : List Char
  normalizedLabel : List Char
  occurrences : List ConceptOccurrence
  firstSeenPath : List Char
  firstSeenName : List Char
  totalCount : Nat
  fileCount : Nat
  tagTypes : List (List Char)
  relatedConcepts : List (List Char)
deriving DecidableEq, Repr

/-- `CrossDocumentRelation`. -/
structure CrossDocumentRelation where
  sourceFile : List Char
  targetFile : List Char
  sharedConcepts : List (List Char)
  relationshipStrength : ℚ
deriving DecidableEq, Repr

/-- `IndexMetadata`. -/
structure IndexMetadata where
  scopePath : List Char
  totalFiles : Nat
  totalTags : Nat
  totalConcepts : Nat
  skippedRelations : Bool
  wasAborted : Bool
  warnings : List (List Char)
deriving DecidableEq, Repr

/-- `VaultIndex`. -/
structure VaultIndex where
  metadata : IndexMetadata
  concepts : List (List Char × ConceptEntry)
  relations : List CrossDocumentRelation
  fileIndex : List (List Char × List SemanticTag)
deriving DecidableEq, Repr

/-- `getFilesInScope`: folder filter, exclusion patterns, hard cap. -/
def getFilesInScope (cfg : Config) (folderPath : Option (List Char))
    (files : List MdFile) : List MdFile :=
  let f1 : List MdFile := match folderPath with
    | some p => files.filter (fun f => startsWithL p f.path)
    | none => files
  let f2 := f1.filter (fun f =>
    !(cfg.excludePatterns.any (fun pat => containsSub (lowerStr pat) (lowerStr f.path))))
  if f2.length > cfg.maxFiles then f2.take cfg.maxFiles else f2

/-- The mutable locals of the scan loop in `buildIndex`. -/
structure ScanState where
  fileIndex : List (List Char × List SemanticTag)
  concepts : List (List Char × ConceptEntry)
  totalTags : Nat
  warnings : List (List Char)
  processed : Nat
deriving DecidableEq, Repr

def initialScanState : ScanState := ⟨[], [], 0, [], 0⟩

/-- Reading the abort flag after `k` documents have been processed. -/
def abortedAt : Option Nat → Nat → Bool
  | none, _ => false
  | some a, k => a ≤ k

def abortMsg : List Char := "Indexing was aborted by user".data

def skipMsg (n : Nat) : List Char :=
  ("Skipped cross-file relations for " ++ toString n ++ " files (too large)").data

/-- Aggregate one parsed tag into the concept map. -/
def processTag (filePath fileName : List Char)
    (concepts : List (List Char × ConceptEntry)) (pt : ParsedTag) :
    List (List Char × ConceptEntry) :=
  let tag := pt.tag
  let nl := normalizeLabel tag.label
  let occ : ConceptOccurrence :=
    ⟨filePath, fileName, tag.uuid, tag.type, tag.label, pt.lineNumber⟩
  match alookup nl concepts with
  | some e =>
    let occs := e.occurrences ++ [occ]
    mapSet concepts nl
      { e with
        occurrences := occs,
        totalCount := e.totalCount + 1,
        tagTypes := if tag.type ∈ e.tagTypes then e.tagTypes else e.tagTypes ++ [tag.type],
        fileCount := (jsSetDedup (occs.map (fun o => o.filePath))).length }
  | none =>
    concepts ++ [(nl, ⟨tag.label, nl, [occ], filePath, fileName, 1, 1, [tag.type], []⟩)]

/-- Scan one document: parse its tags, record them in the file index, and
aggregate every tag into the concept map. -/
def processFile (st : ScanState) (f : MdFile) : ScanState :=
  let parsed := parseTags f.content
  let tags := parsed.map (fun pt => pt.tag)
  { st with
    fileIndex := mapSet st.fileIndex f.path tags,
    concepts := parsed.foldl (processTag f.path f.name) st.concepts,
    totalTags := st.totalTags + tags.length,
    processed := st.processed + 1 }

/-- Cut a list into batches of `bs` (fuelled so that the kernel can evaluate
it; the fuel `l.length` never runs out since every batch is nonempty).  A
`batchSize` of `0` would loop forever in the source; here it batches by 1. -/
def chunksOfFuel {α : Type} : Nat → Nat → List α → List (List α)
  | 0, _, _ => []
  | _ + 1, _, [] => []
  | fuel + 1, bs, x :: xs => (x :: xs.take (bs - 1)) :: chunksOfFuel fuel bs (xs.drop (bs - 1))

def chunksOf {α : Type} (bs : Nat) (l : List α) : List (List α) :=
  chunksOfFuel l.length bs l

/-- The inner batch loop: abort check before each document. -/
def scanChunk (ab : Option Nat) : List MdFile → ScanState → ScanState
  | [], st => st
  | f :: fs, st =>
    if abortedAt ab st.processed then st
    else scanChunk ab fs (processFile st f)

/-- The outer batch loop: abort check (recording a warning) before each batch. -/
def scanChunks (ab : Option Nat) : List (List MdFile) → ScanState → ScanState
  | [], st => st
  | c :: cs, st =>
    if abortedAt ab st.processed then { st with warnings := st.warnings ++ [abortMsg] }
    else scanChunks ab cs (scanChunk ab c st)

/-- The inner relation loop body for a fixed first file: one relation per later
file sharing at least one concept. -/
def pairInner (p : List Char × List (List Char))
    (rest : List (List Char × List (List Char))) : List CrossDocumentRelation :=
  rest.filterMap (fun q =>
    let shared := p.2.filter (fun c => c ∈ q.2)
    if 0 < shared.length then
      some ⟨p.1, q.1, shared, (shared.length : ℚ) / (max p.2.length q.2.length : ℚ)⟩
    else none)

/-- The `i < j` double loop over files with tags (outer abort check included;
the modelled flag cannot flip inside this loop). -/
def pairLoop (aborted : Bool) :
    List (List Char × List (List Char)) → List CrossDocumentRelation
  | [] => []
  | p :: rest => if aborted then [] else pairInner p rest ++ pairLoop aborted rest

/-- The related-concepts pass: for every concept, the labels of up to 20 other
concepts sharing at least one file. -/
def relatedPhase (concepts : List (List Char × ConceptEntry)) :
    List (List Char × ConceptEntry) :=
  concepts.map (fun le =>
    let filesWith := le.2.occurrences.map (fun o => o.filePath)
    let related := concepts.filterMap (fun oe =>
      if oe.1 = le.1 then none
      else if filesWith.any (fun f => f ∈ oe.2.occurrences.map (fun o => o.filePath)) then
        some oe.2.label
      else none)
    (le.1, { le.2 with relatedConcepts := (jsSetDedup related).take 20 }))

/-- `buildIndex`. -/
def buildIndex (cfg : Config) (abortAfter : Option Nat)
    (folderPath : Option (List Char)) (files : List MdFile) : VaultIndex :=
  let inScope := getFilesInScope cfg folderPath files
  let st := scanChunks abortAfter (chunksOf cfg.batchSize inScope) initialScanState
  let aborted := abortedAt abortAfter st.processed
  let filesWithTags := (st.fileIndex.filter (fun pr => 0 < pr.2.length)).map (fun pr => pr.1)
  if aborted = false ∧ filesWithTags.length ≤ cfg.maxRelationFiles then
    let fcm := filesWithTags.map (fun p =>
      (p, jsSetDedup (((alookup p st.fileIndex).getD []).map
        (fun t => normalizeLabel t.label))))
    let relations := pairLoop aborted fcm
    let concepts2 := if st.concepts.length ≤ 500 then relatedPhase st.concepts else st.concepts
    { metadata := ⟨folderPath.getD "/".data, inScope.length, st.totalTags,
        st.concepts.length, false, aborted, st.warnings⟩,
      concepts := concepts2, relations := relations, fileIndex := st.fileIndex }
  else if aborted = false then
    { metadata := ⟨folderPath.getD "/".data, inScope.length, st.totalTags,
        st.concepts.length, true, aborted, st.warnings ++ [skipMsg filesWithTags.length]⟩,
      concepts := st.concepts, relations := [], fileIndex := st.fileIndex }
  else
    { metadata := ⟨folderPath.getD "/".data, inScope.length, st.totalTags,
        st.concepts.length, false, aborted, st.warnings⟩,
      concepts := st.concepts, relations := [], fileIndex := st.fileIndex }

/-- The set of normalized labels of a document, as the relation phase computes
it from the parsed tags. -/
def conceptSetOfFile (f : MdFile) : List (List Char) :=
  jsSetDedup ((parseTags f.content).map (fun pt => normalizeLabel pt.tag.label))

/-- The shared normalized labels of two documents. -/
def sharedConceptsOf (f g : MdFile) : List (List Char) :=
  (conceptSetOfFile f).filter (fun c => c ∈ conceptSetOfFile g)

/-- `|shared| / max(|conceptsInA|, |conceptsInB|)`. -/
def pairStrength (f g : MdFile) : ℚ :=
  ((sharedConceptsOf f g).length : ℚ)
    / (max (conceptSetOfFile f).length (conceptSetOfFile g).length : ℚ)

/-- A relation connects the unordered pair `{p, q}` (in either orientation). -/
def touches (p q : List Char) (r : CrossDocumentRelation) : Bool :=
  decide ((r.sourceFile = p ∧ r.targetFile = q) ∨ (r.sourceFile = q ∧ r.targetFile = p))

/-- Sample document: one `Axiom` annotation labelled `Conservation of Energy`. -/
def docA : MdFile := ⟨"docA.md".data, "docA.md".data,
  formatTag ⟨"Axiom".data, "ua".data, "Conservation of Energy".data, none, none⟩⟩

/-- Sample document: one `Claim` annotation whose label normalizes like
`docA`'s. -/
def docB : MdFile := ⟨"docB.md".data, "docB.md".data,
  formatTag ⟨"Claim".data, "ub".data, "Conservation of Energy!".data, none, none⟩⟩

/-- Sample document: one `Claim` annotation labelled `Energy Conservation`. -/
def docC : MdFile := ⟨"docC.md".data, "docC.md".data,
  formatTag ⟨"Claim".data, "uc".data, "Energy Conservation".data, none, none⟩⟩

end VaultIndexer

/-! ### Lemmas about the string primitives -/

theorem collapseWs_singleton (c : Char) :
    collapseWs [c] = if isJsWs c then [' '] else [c] := rfl

theorem collapseWs_cons_cons (c c2 : Char) (cs : List Char) :
    collapseWs (c :: c2 :: cs) =
      if isJsWs c then
        (if isJsWs c2 then collapseWs (c2 :: cs) else ' ' :: collapseWs (c2 :: cs))
      else c :: collapseWs (c2 :: cs) := rfl

theorem collapseWs_cons_not_ws (c : Char) (cs : List Char) (h : ¬ isJsWs c = true) :
    collapseWs (c :: cs) = c :: collapseWs cs := by
  cases cs with
  | nil => rw [collapseWs_singleton, if_neg h]; rfl
  | cons c2 cs2 => rw [collapseWs_cons_cons, if_neg h]

theorem collapseWs_ne_nil (l : List Char) (h : l ≠ []) : collapseWs l ≠ [] := by
  induction l with
  | nil => exact absurd rfl h
  | cons c cs ih =>
    by_cases hc : isJsWs c = true
    · cases cs with
      | nil => rw [collapseWs_singleton, if_pos hc]; simp
      | cons c2 cs2 =>
        rw [collapseWs_cons_cons, if_pos hc]
        by_cases h2 : isJsWs c2 = true
        · rw [if_pos h2]; exact ih (by simp)
        · rw [if_neg h2]; simp
    · rw [collapseWs_cons_not_ws c cs hc]; simp

/-- The last character of `collapseWs l` is not whitespace whenever the last
character of `l` is not whitespace. -/
theorem collapseWs_getLast (l : List Char)
    (h : ∀ hl : l ≠ [], ¬ isJsWs (l.getLast hl) = true) :
    ∀ hc : collapseWs l ≠ [], ¬ isJsWs ((collapseWs l).getLast hc) = true := by
  induction l with
  | nil => simp [collapseWs]
  | cons c cs ih =>
    intro hc
    by_cases hws : isJsWs c = true
    · cases cs with
      | nil => exact absurd hws (h (by simp))
      | cons c2 cs2 =>
        have hlast : ∀ hl : (c2 :: cs2) ≠ [], ¬ isJsWs ((c2 :: cs2).getLast hl) = true := by
          intro hl
          have := h (by simp)
          rwa [List.getLast_cons (by simp)] at this
        have hne : collapseWs (c2 :: cs2) ≠ [] := collapseWs_ne_nil _ (by simp)
        by_cases h2 : isJsWs c2 = true
        · have hrw : collapseWs (c :: c2 :: cs2) = collapseWs (c2 :: cs2) := by
            rw [collapseWs_cons_cons, if_pos hws, if_pos h2]
          rw [List.getLast_congr hc hne hrw]
          exact ih hlast hne
        · have hrw : collapseWs (c :: c2 :: cs2) = ' ' :: collapseWs (c2 :: cs2) := by
            rw [collapseWs_cons_cons, if_pos hws, if_neg h2]
          rw [List.getLast_congr hc (by simp) hrw, List.getLast_cons hne]
          exact ih hlast hne
    · have hrw : collapseWs (c :: cs) = c :: collapseWs cs :=
        collapseWs_cons_not_ws c cs hws
      cases hcs : collapseWs cs with
      | nil =>
        have h1 : collapseWs (c :: cs) = [c] := by rw [hrw, hcs]
        rw [List.getLast_congr hc (by simp) h1]
        simpa using hws
      | cons d ds =>
        have hcsne : cs ≠ [] := by
          rintro rfl
          simp [collapseWs] at hcs
        have hlast : ∀ hl : cs ≠ [], ¬ isJsWs (cs.getLast hl) = true := by
          intro hl
          have := h (by simp)
          rwa [List.getLast_cons hl] at this
        have hne2 : collapseWs cs ≠ [] := by simp [hcs]
        have := ih hlast hne2
        rw [List.getLast_congr hc (by simp [hcs]) hrw, List.getLast_cons hne2]
        exact this

theorem trimEndL_collapseWs_of_trimmed (l : List Char) (h : trimEndL l = l) :
    trimEndL (collapseWs l) = collapseWs l := by
  rw [trimEndL, List.rdropWhile_eq_self_iff]
  rw [trimEndL, List.rdropWhile_eq_self_iff] at h
  exact collapseWs_getLast l h

theorem trimStart_collapseWs_of_trimmed (l : List Char) (h : trimStart l = l) :
    trimStart (collapseWs l) = collapseWs l := by
  cases l with
  | nil => simp [collapseWs, trimStart]
  | cons c cs =>
    have hc : ¬ isJsWs c = true := by
      intro hws
      rw [trimStart, List.dropWhile_cons, if_pos hws] at h
      have hlen := congrArg List.length h
      have hle := cs.dropWhile_sublist isJsWs |>.length_le
      simp at hlen
      omega
    rw [collapseWs_cons_not_ws c cs hc, trimStart, List.dropWhile_cons, if_neg hc]

theorem jsTrim_trimStart_fixed (l : List Char) : trimStart (jsTrim l) = jsTrim l := by
  unfold jsTrim trimStart
  exact List.dropWhile_idempotent _ _

theorem jsTrim_trimEndL_fixed (l : List Char) : trimEndL (jsTrim l) = jsTrim l := by
  unfold jsTrim
  rw [trimEndL, List.rdropWhile_eq_self_iff]
  intro hl
  have hy : trimEndL l ≠ [] := by
    intro hnil
    rw [trimStart, hnil] at hl
    simp at hl
  obtain ⟨t, ht⟩ := (trimEndL l).dropWhile_suffix isJsWs
  have hq : (trimStart (trimEndL l)).getLast? = (trimEndL l).getLast? := by
    conv_rhs => rw [← ht]
    exact (List.getLast?_append_of_ne_nil t hl).symm
  have hlast : (trimStart (trimEndL l)).getLast hl = (trimEndL l).getLast hy := by
    have a1 := List.getLast?_eq_getLast (trimStart (trimEndL l)) hl
    have a2 := List.getLast?_eq_getLast (trimEndL l) hy
    rw [a1, a2] at hq
    exact Option.some.inj hq
  rw [hlast]
  exact List.rdropWhile_last_not isJsWs l hy

/-- Trimming after collapsing is a no-op on an already trimmed list. -/
theorem jsTrim_collapseWs_jsTrim (l : List Char) :
    jsTrim (collapseWs (jsTrim l)) = collapseWs (jsTrim l) := by
  rw [jsTrim, trimEndL_collapseWs_of_trimmed _ (jsTrim_trimEndL_fixed l),
    trimStart_collapseWs_of_trimmed _ (jsTrim_trimStart_fixed l)]

/-- C10: the two normalizations disagree in general: the registry keeps hyphens
(`e-mail`) and re-trims boundary whitespace exposed by stripping (`a !`),
the indexer does neither. -/
theorem claim_C10_counterexample :
    ConceptRegistry.normalizeLabel "e-mail".data ≠ VaultIndexer.normalizeLabel "e-mail".data ∧
    ConceptRegistry.normalizeLabel "a !".data ≠ VaultIndexer.normalizeLabel "a !".data := by
  decide

/-- C10 (amended): on labels whose lowercased form consists only of word
characters (`\w`) and whitespace, `VaultIndexer.normalizeLabel` and
`ConceptRegistry.normalizeLabel` compute the same key; the hyphen and
re-trim behaviours on which they differ cannot fire there. -/
theorem claim_C10_normalization_agreement (label : List Char)
    (h : ∀ c ∈ lowerStr label, isWordChar c = true ∨ isJsWs c = true) :
    ConceptRegistry.normalizeLabel label = VaultIndexer.normalizeLabel label := by
  have hsub : ∀ c ∈ jsTrim (lowerStr label), isWordChar c = true ∨ isJsWs c = true := by
    intro c hc
    apply h
    have h1 : List.Sublist (jsTrim (lowerStr label)) (lowerStr label) :=
      List.Sublist.trans (List.dropWhile_sublist _)
        ((List.rdropWhile_prefix isJsWs (lowerStr label)).sublist)
    exact h1.subset hc
  have hfR : (jsTrim (lowerStr label)).filter
      (fun c => isWordChar c || isJsWs c || c == '-') = jsTrim (lowerStr label) := by
    rw [List.filter_eq_self]
    intro c hc
    rcases hsub c hc with h1 | h1 <;> simp [h1]
  have hfI : (jsTrim (lowerStr label)).filter
      (fun c => isWordChar c || isJsWs c) = jsTrim (lowerStr label) := by
    rw [List.filter_eq_self]
    intro c hc
    rcases hsub c hc with h1 | h1 <;> simp [h1]
  rw [ConceptRegistry.normalizeLabel, VaultIndexer.normalizeLabel, hfR, hfI,
    jsTrim_collapseWs_jsTrim]

/-- Witness for C10 (amended) at the concrete label `"Energy  Conservation"`. -/
theorem claim_C10_witness :
    ConceptRegistry.normalizeLabel "Energy  Conservation".data
      = VaultIndexer.normalizeLabel "Energy  Conservation".data :=
  claim_C10_normalization_agreement "Energy  Conservation".data (by decide)

/-! ### Lemmas about substring search -/

theorem startsWithL_exists (m s : List Char) :
    startsWithL m s = true ↔ ∃ r, s = m ++ r := by
  induction m generalizing s with
  | nil => simp [startsWithL]
  | cons a as ih =>
    cases s with
    | nil =>
      simp only [startsWithL]
      constructor
      · intro h; exact absurd h (by simp)
      · rintro ⟨r, hr⟩; simp at hr
    | cons b bs =>
      simp only [startsWithL, Bool.and_eq_true, beq_iff_eq, ih]
      constructor
      · rintro ⟨rfl, r, rfl⟩; exact ⟨r, rfl⟩
      · rintro ⟨r, hr⟩
        rw [List.cons_append] at hr
        obtain ⟨rfl, rfl⟩ : a = b ∧ bs = as ++ r := by
          constructor
          · exact (List.cons.inj hr).1.symm
          · exact (List.cons.inj hr).2
        exact ⟨rfl, r, rfl⟩

theorem startsWithL_length_le (m s : List Char) (h : startsWithL m s = true) :
    m.length ≤ s.length := by
  obtain ⟨r, rfl⟩ := (startsWithL_exists m s).mp h
  simp

theorem startsWithL_append_right (a b s : List Char)
    (h : startsWithL (a ++ b) s = true) : startsWithL b (s.drop a.length) = true := by
  obtain ⟨r, rfl⟩ := (startsWithL_exists (a ++ b) s).mp h
  rw [startsWithL_exists]
  exact ⟨r, by simp⟩

theorem firstIdx_isSome_of_occ (m s : List Char) (k : Nat)
    (h : startsWithL m (s.drop k) = true) : (firstIdx m s).isSome = true := by
  induction s generalizing k with
  | nil =>
    simp only [List.drop_nil] at h
    simp [firstIdx, h]
  | cons c cs ih =>
    by_cases h0 : startsWithL m (c :: cs) = true
    · simp [firstIdx, h0]
    · cases k with
      | zero => exact absurd h h0
      | succ k =>
        simp only [List.drop_succ_cons] at h
        have := ih k h
        simp only [firstIdx, h0, if_neg]
        simp only [Bool.false_eq_true, if_false]
        cases hfi : firstIdx m cs with
        | none => rw [hfi] at this; simp at this
        | some n => simp [hfi]

theorem firstIdx_some_starts (m s : List Char) (n : Nat)
    (h : firstIdx m s = some n) : startsWithL m (s.drop n) = true := by
  induction s generalizing n with
  | nil =>
    simp only [firstIdx] at h
    by_cases h0 : startsWithL m [] = true
    · rw [if_pos h0] at h
      cases h
      simpa using h0
    · rw [if_neg h0] at h; cases h
  | cons c cs ih =>
    simp only [firstIdx] at h
    by_cases h0 : startsWithL m (c :: cs) = true
    · rw [if_pos h0] at h
      cases h
      simpa using h0
    · rw [if_neg h0] at h
      cases hfi : firstIdx m cs with
      | none => rw [hfi] at h; simp at h
      | some k =>
        rw [hfi] at h
        have hn : k + 1 = n := by simpa using h
        subst hn
        simpa using ih k hfi

theorem firstIdx_eq_of_firstOcc (m s : List Char) (n : Nat)
    (h : firstOccAt m s n) : firstIdx m s = some n := by
  obtain ⟨hocc, hmin⟩ := h
  induction s generalizing n with
  | nil =>
    cases n with
    | zero => simp only [List.drop_nil] at hocc; simp [firstIdx, hocc]
    | succ n =>
      exact absurd (by simpa using hocc) (by simpa using hmin 0 (Nat.succ_pos n))
  | cons c cs ih =>
    cases n with
    | zero =>
      simp only [List.drop_zero] at hocc
      simp [firstIdx, hocc]
    | succ n =>
      have h0 : ¬ startsWithL m (c :: cs) = true := by
        simpa using hmin 0 (Nat.succ_pos n)
      have hocc' : startsWithL m (cs.drop n) = true := by
        simpa using hocc
      have hmin' : ∀ k < n, ¬ startsWithL m (cs.drop k) = true := by
        intro k hk
        have := hmin (k + 1) (Nat.succ_lt_succ hk)
        simpa using this
      rw [firstIdx, if_neg h0, ih n hocc' hmin']
      rfl

theorem removeStartMarker_decomp : removeStartMarker = "\n\n".data ++ startMarker := by
  decide

/-- `hasTagBlock` holds at any document whose `removeStartMarker` occurs. -/
theorem hasTagBlock_of_removeStart_occ (d : List Char) (k : Nat)
    (h : startsWithL removeStartMarker (d.drop k) = true) : hasTagBlock d = true := by
  rw [removeStartMarker_decomp] at h
  have h2 := startsWithL_append_right _ _ _ h
  rw [List.drop_drop] at h2
  rw [hasTagBlock, containsSub, firstIdx_isSome_of_occ startMarker d _ h2]

theorem firstIdx_removeStart_none (d : List Char)
    (h : firstIdx startMarker d = none) : firstIdx removeStartMarker d = none := by
  cases hfi : firstIdx removeStartMarker d with
  | none => rfl
  | some k =>
    have h1 := firstIdx_some_starts _ _ _ hfi
    rw [removeStartMarker_decomp] at h1
    have h2 := startsWithL_append_right _ _ _ h1
    rw [List.drop_drop] at h2
    have := firstIdx_isSome_of_occ startMarker d _ h2
    rw [h] at this
    simp at this

/-! ### Claims C2, C9, C3 about the tag codec -/

/-- C2 (failing input): a tag with `customType` set is written with wire type
`Custom:phys`, which the `([^:]+)` type group of `TAG_REGEX` can never match,
so `parseTags` of the freshly written document returns nothing even though the
written text does contain the tag's uuid.  (The `Custom:` branch of `parseTags`
is unreachable.) -/
theorem claim_C2_custom_tag_not_parsed :
    parseTags (writeTags []
      [⟨"Custom".data, "u1".data, "L".data, none, some "phys".data⟩] false) = [] ∧
    containsSub "u1".data (writeTags []
      [⟨"Custom".data, "u1".data, "L".data, none, some "phys".data⟩] false) = true := by
  decide

/-- C9 (failing input): a block holding a Custom-typed tag (uuid `u1`) loses it
on a merge-mode `writeTags` of a fresh standard tag: the existing tag cannot be
parsed, so the rebuilt block contains only the new tag. -/
theorem claim_C9_merge_drops_block_tag :
    (containsSub "u1".data (writeTags []
        [⟨"Custom".data, "u1".data, "L".data, none, some "phys".data⟩] false) = true) ∧
    (containsSub "u1".data (writeTags
        (writeTags [] [⟨"Custom".data, "u1".data, "L".data, none, some "phys".data⟩] false)
        [⟨"Axiom".data, "u2".data, "M".data, none, none⟩] true) = false) ∧
    ((parseTags (writeTags
        (writeTags [] [⟨"Custom".data, "u1".data, "L".data, none, some "phys".data⟩] false)
        [⟨"Axiom".data, "u2".data, "M".data, none, none⟩] true)).map (fun pt => pt.tag)
      = [⟨"Axiom".data, "u2".data, "M".data, none, none⟩]) := by
  decide

/-- C3 (amended): on a document that is a marker-free body optionally followed
by one well-formed tag block, every tag operation returns the body — exactly
for `removeTagBlock` and for the empty-result branch of `removeTags`, and with
its trailing whitespace trimmed for the block-writing operations — followed by
the new block; nothing else of the text outside the block is changed. -/
theorem claim_C3_frame_amended
    (body : List Char) (T0 T : List SemanticTag)
    (uuids : List (List Char)) (u : List Char) (upd : SemanticTag → SemanticTag)
    (hS : T0 ≠ [] → firstOccAt removeStartMarker (body ++ createTagBlock T0) body.length)
    (hE : T0 ≠ [] → firstOccAt endMarker (body ++ createTagBlock T0)
      ((body ++ createTagBlock T0).length - endMarker.length))
    (hN : T0 = [] → firstIdx startMarker body = none) :
    removeTagBlock (body ++ createTagBlock T0) = body ∧
    writeTags (body ++ createTagBlock T0) T false = trimEndL body ++ createTagBlock T ∧
    writeTags (body ++ createTagBlock T0) T true
      = trimEndL body ++ createTagBlock
          (if hasTagBlock (body ++ createTagBlock T0) then
            (parseTags (body ++ createTagBlock T0)).map (fun pt => pt.tag)
              ++ T.filter (fun t => ¬ t.uuid ∈
                  (parseTags (body ++ createTagBlock T0)).map (fun pt => pt.tag.uuid))
            else T) ∧
    removeTags (body ++ createTagBlock T0) uuids
      = (if (((parseTags (body ++ createTagBlock T0)).filter
            (fun pt => ¬ pt.tag.uuid ∈ uuids)).map (fun pt => pt.tag)).length > 0 then
          trimEndL body ++ createTagBlock (((parseTags (body ++ createTagBlock T0)).filter
            (fun pt => ¬ pt.tag.uuid ∈ uuids)).map (fun pt => pt.tag))
          else body) ∧
    updateTag (body ++ createTagBlock T0) u upd
      = trimEndL body ++ createTagBlock ((parseTags (body ++ createTagBlock T0)).map
          (fun pt => if pt.tag.uuid = u then { upd pt.tag with uuid := pt.tag.uuid }
            else pt.tag)) := by
  by_cases hT : T0 = []
  · subst hT
    have hd : body ++ createTagBlock ([] : List SemanticTag) = body := by
      simp [createTagBlock]
    have hN' := hN rfl
    have hrm : removeTagBlock body = body := by
      rw [removeTagBlock, firstIdx_removeStart_none body hN']
    have hblock : hasTagBlock body = false := by
      rw [hasTagBlock, containsSub, hN']
      rfl
    rw [hd]
    refine ⟨hrm, ?_, ?_, ?_, ?_⟩
    · rw [writeTags]
      simp [hblock]
    · rw [writeTags]
      simp [hblock]
    · rw [removeTags]
      simp only [hrm]
    · rw [updateTag]
      simp only [hrm]
  · have hS' := hS hT
    have hE' := hE hT
    have h1 : firstIdx removeStartMarker (body ++ createTagBlock T0) = some body.length :=
      firstIdx_eq_of_firstOcc _ _ _ hS'
    have h2 : firstIdx endMarker (body ++ createTagBlock T0)
        = some ((body ++ createTagBlock T0).length - endMarker.length) :=
      firstIdx_eq_of_firstOcc _ _ _ hE'
    have hrm : removeTagBlock (body ++ createTagBlock T0) = body := by
      have hdrop : (body ++ createTagBlock T0).drop
          (((body ++ createTagBlock T0).length - endMarker.length) + endMarker.length) = [] :=
        List.drop_eq_nil_of_le (by omega)
      have hstep : removeTagBlock (body ++ createTagBlock T0)
          = (body ++ createTagBlock T0).take body.length
            ++ (body ++ createTagBlock T0).drop
              (((body ++ createTagBlock T0).length - endMarker.length) + endMarker.length) := by
        rw [removeTagBlock, h1, h2]
      rw [hstep, hdrop, List.take_left, List.append_nil]
    have hblock : hasTagBlock (body ++ createTagBlock T0) = true :=
      hasTagBlock_of_removeStart_occ _ body.length hS'.1
    refine ⟨hrm, ?_, ?_, ?_, ?_⟩
    · rw [writeTags]
      simp [hblock, hrm]
    · rw [writeTags]
      simp [hblock, hrm]
    · rw [removeTags]
      simp only [hrm]
    · rw [updateTag]
      simp only [hrm]

/-- Witness for C3 (amended): the block written onto the body `"Hello"` is
removed exactly, recovering the body. -/
theorem claim_C3_witness :
    removeTagBlock ("Hello".data
        ++ createTagBlock [⟨"Axiom".data, "u1".data, "L".data, none, none⟩])
      = "Hello".data :=
  (claim_C3_frame_amended "Hello".data
    [⟨"Axiom".data, "u1".data, "L".data, none, none⟩] [] [] [] id
    (by decide) (by decide) (by decide)).1

/-! ### Lemmas about association lists and the registry -/

theorem alookup_nil {α β : Type} [DecidableEq α] (k : α) :
    alookup k ([] : List (α × β)) = none := rfl

theorem alookup_cons {α β : Type} [DecidableEq α] (k : α) (p : α × β) (rest : List (α × β)) :
    alookup k (p :: rest) = if p.1 = k then some p.2 else alookup k rest := rfl

theorem mapSet_cons {α β : Type} [DecidableEq α] (p : α × β) (rest : List (α × β))
    (k : α) (v : β) :
    mapSet (p :: rest) k v = if p.1 = k then (p.1, v) :: rest else p :: mapSet rest k v := rfl

theorem alookup_append_some {α β : Type} [DecidableEq α] (k : α) (l₁ l₂ : List (α × β))
    (v : β) (h : alookup k l₁ = some v) : alookup k (l₁ ++ l₂) = some v := by
  induction l₁ with
  | nil => simp [alookup_nil] at h
  | cons p rest ih =>
    rw [alookup_cons] at h
    rw [List.cons_append, alookup_cons]
    by_cases hk : p.1 = k
    · rw [if_pos hk] at h ⊢
      exact h
    · rw [if_neg hk] at h ⊢
      exact ih h

theorem alookup_append_none {α β : Type} [DecidableEq α] (k : α) (l₁ l₂ : List (α × β))
    (h : alookup k l₁ = none) : alookup k (l₁ ++ l₂) = alookup k l₂ := by
  induction l₁ with
  | nil => simp
  | cons p rest ih =>
    rw [alookup_cons] at h
    rw [List.cons_append, alookup_cons]
    by_cases hk : p.1 = k
    · rw [if_pos hk] at h; cases h
    · rw [if_neg hk] at h ⊢
      exact ih h

theorem alookup_filter_ne {α β : Type} [DecidableEq α] (k : α) (l : List (α × β)) :
    alookup k (l.filter (fun pr => pr.1 ≠ k)) = none := by
  induction l with
  | nil => simp [alookup]
  | cons p rest ih =>
    by_cases hk : p.1 = k
    · simp only [List.filter_cons, hk]
      simpa using ih
    · simp only [List.filter_cons]
      rw [if_pos (by simpa using hk)]
      rw [alookup, if_neg hk]
      exact ih

theorem mem_jsSetDedup {α : Type} [DecidableEq α] (a : α) (l : List α) :
    a ∈ jsSetDedup l ↔ a ∈ l := by
  induction l with
  | nil => simp [jsSetDedup]
  | cons b bs ih =>
    rw [jsSetDedup]
    by_cases hab : a = b
    · subst hab; simp
    · simp only [List.mem_cons, List.mem_filter, ih]
      constructor
      · rintro (h | ⟨h, _⟩)
        · exact Or.inl h
        · exact Or.inr h
      · rintro (h | h)
        · exact Or.inl h
        · exact Or.inr ⟨h, by simpa using hab⟩

theorem jsSetDedup_nodup {α : Type} [DecidableEq α] (l : List α) : (jsSetDedup l).Nodup := by
  induction l with
  | nil => simp [jsSetDedup]
  | cons a as ih =>
    rw [jsSetDedup, List.nodup_cons]
    constructor
    · intro hmem
      have := (List.mem_filter.mp hmem).2
      simp at this
    · exact ih.filter _

theorem jsSetDedup_eq_nil_iff {α : Type} [DecidableEq α] (l : List α) :
    jsSetDedup l = [] ↔ l = [] := by
  cases l with
  | nil => simp [jsSetDedup]
  | cons a as => simp [jsSetDedup]

theorem countP_filterMap_own {α β : Type} (g : α → Option β) (p : β → Bool) (l : List α) :
    (l.filterMap g).countP p = l.countP (fun a => ((g a).map p).getD false) := by
  induction l with
  | nil => rfl
  | cons a as ih =>
    rw [List.filterMap_cons]
    cases hga : g a with
    | none =>
      rw [List.countP_cons]
      simp [hga, ih]
    | some b =>
      rw [List.countP_cons, List.countP_cons]
      simp [hga, ih]

/-- Intersection-nonemptiness is symmetric. -/
theorem filter_mem_ne_nil_comm {α : Type} [DecidableEq α] (l1 l2 : List α) :
    l1.filter (fun c => c ∈ l2) ≠ [] ↔ l2.filter (fun c => c ∈ l1) ≠ [] := by
  simp only [Ne, List.filter_eq_nil_iff]
  push_neg
  constructor
  · rintro ⟨a, h1, h2⟩
    exact ⟨a, by simpa using h2, by simpa using h1⟩
  · rintro ⟨a, h1, h2⟩
    exact ⟨a, by simpa using h2, by simpa using h1⟩

/-- Intersection size is symmetric for duplicate-free lists. -/
theorem length_filter_mem_comm {α : Type} [DecidableEq α] (l1 l2 : List α)
    (h1 : l1.Nodup) (h2 : l2.Nodup) :
    (l1.filter (fun c => c ∈ l2)).length = (l2.filter (fun c => c ∈ l1)).length := by
  have e1 : (l1.filter (fun c => c ∈ l2)).toFinset = l1.toFinset ∩ l2.toFinset := by
    ext a
    simp [List.mem_filter]
  have e2 : (l2.filter (fun c => c ∈ l1)).toFinset = l2.toFinset ∩ l1.toFinset := by
    ext a
    simp [List.mem_filter]
  calc (l1.filter (fun c => c ∈ l2)).length
      = (l1.filter (fun c => c ∈ l2)).toFinset.card :=
        (List.toFinset_card_of_nodup (h1.filter _)).symm
    _ = (l1.toFinset ∩ l2.toFinset).card := by rw [e1]
    _ = (l2.toFinset ∩ l1.toFinset).card := by rw [Finset.inter_comm]
    _ = (l2.filter (fun c => c ∈ l1)).toFinset.card := by rw [e2]
    _ = (l2.filter (fun c => c ∈ l1)).length :=
        List.toFinset_card_of_nodup (h2.filter _)

namespace ConceptRegistry

theorem resolveIn_lookup_some (l : List (List Char × Entry)) (n : List Char) (e : Entry)
    (h : alookup n l = some e) : resolveIn l n = some e.uuid := by
  rw [resolveIn, h]

theorem resolveIn_lookup_none (l : List (List Char × Entry)) (n : List Char)
    (h : alookup n l = none) :
    resolveIn l n = (l.find? (fun pr => n ∈ pr.2.aliases)).map (fun pr => pr.2.uuid) := by
  rw [resolveIn, h]

/-- Appending a fresh alias-free entry under a different key does not disturb an
already resolving lookup. -/
theorem resolveIn_append_single (l : List (List Char × Entry)) (m : List Char) (e : Entry)
    (n : List Char) (u : Nat) (hne : m ≠ n) (h : resolveIn l n = some u) :
    resolveIn (l ++ [(m, e)]) n = some u := by
  cases hn : alookup n l with
  | some e2 =>
    rw [resolveIn_lookup_some l n e2 hn] at h
    rw [resolveIn_lookup_some _ n e2 (alookup_append_some _ _ _ _ hn)]
    exact h
  | none =>
    rw [resolveIn_lookup_none l n hn] at h
    have hn2 : alookup n (l ++ [(m, e)]) = none := by
      rw [alookup_append_none _ _ _ hn, alookup, if_neg hne]
      rfl
    rw [resolveIn_lookup_none _ n hn2, List.find?_append]
    cases hfn : l.find? (fun pr => n ∈ pr.2.aliases) with
    | none =>
      rw [hfn] at h
      simp at h
    | some pr =>
      rw [hfn] at h
      simpa using h

theorem getOrCreate_of_resolved (s : State) (label ty src : List Char) (u : Nat)
    (h : resolvesTo s (normalizeLabel label) = some u) :
    getOrCreateUUID s label ty src = (u, s) := by
  rw [getOrCreateUUID]
  rw [resolvesTo, resolveIn] at h
  cases hl : alookup (normalizeLabel label) s.concepts with
  | some e =>
    rw [hl] at h
    cases h
    rfl
  | none =>
    rw [hl] at h
    cases hf : s.concepts.find? (fun pr => normalizeLabel label ∈ pr.2.aliases) with
    | some pr =>
      rw [hf] at h
      cases h
      rfl
    | none => rw [hf] at h; cases h

theorem resolvesTo_after_getOrCreate (s : State) (label ty src : List Char) :
    resolvesTo (getOrCreateUUID s label ty src).2 (normalizeLabel label)
      = some (getOrCreateUUID s label ty src).1 := by
  rw [getOrCreateUUID]
  cases hl : alookup (normalizeLabel label) s.concepts with
  | some e => simp [resolvesTo, resolveIn, hl]
  | none =>
    cases hf : s.concepts.find? (fun pr => normalizeLabel label ∈ pr.2.aliases) with
    | some pr => simp [resolvesTo, resolveIn, hl, hf]
    | none =>
      have h2 : alookup (normalizeLabel label)
          (s.concepts ++ [(normalizeLabel label,
            (⟨s.nextUuid, label, normalizeLabel label, ty, src, []⟩ : Entry))])
          = some (⟨s.nextUuid, label, normalizeLabel label, ty, src, []⟩ : Entry) := by
        rw [alookup_append_none _ _ _ hl, alookup, if_pos rfl]
      exact resolveIn_lookup_some _ _ _ h2

theorem resolvesTo_preserved_getOrCreate (s : State) (n : List Char) (u : Nat)
    (label ty src : List Char) (h : resolvesTo s n = some u) :
    resolvesTo (getOrCreateUUID s label ty src).2 n = some u := by
  rw [getOrCreateUUID]
  cases hl : alookup (normalizeLabel label) s.concepts with
  | some e => exact h
  | none =>
    cases hf : s.concepts.find? (fun pr => normalizeLabel label ∈ pr.2.aliases) with
    | some pr => exact h
    | none =>
      have hne : normalizeLabel label ≠ n := by
        intro heq
        rw [resolvesTo, resolveIn] at h
        rw [heq] at hl hf
        rw [hl, hf] at h
        simp at h
      exact resolveIn_append_single s.concepts (normalizeLabel label) _ n u hne h

theorem StoreInv_preserved_getOrCreate (s : State) (st : Option StoredData)
    (label ty src : List Char) (hinv : StoreInv s st) :
    StoreInv (getOrCreateUUID s label ty src).2 st := by
  rw [getOrCreateUUID]
  cases hl : alookup (normalizeLabel label) s.concepts with
  | some e => exact hinv
  | none =>
    cases hf : s.concepts.find? (fun pr => normalizeLabel label ∈ pr.2.aliases) with
    | some pr => exact hinv
    | none =>
      intro hd
      simp at hd

theorem applyOp_getOrCreate_eq (s : State) (st : Option StoredData)
    (label ty src : List Char) :
    applyOp (s, st) (Op.getOrCreate label ty src) = ((getOrCreateUUID s label ty src).2, st) :=
  rfl

theorem applyOp_saveLoad_eq (s : State) (st : Option StoredData) :
    applyOp (s, st) Op.saveLoad = load (save s st).1 (save s st).2 := rfl

theorem load_some_eq (s : State) (d : StoredData) :
    load s (some d) = (installData s d, some d) := rfl

theorem applyOps_cons (p : State × Option StoredData) (op : Op) (ops : List Op) :
    applyOps p (op :: ops) = applyOps (applyOp p op) ops := rfl

/-- A save-then-load round trip preserves the concepts table and the store
invariant. -/
theorem saveLoad_preserve (s : State) (st : Option StoredData) (hinv : StoreInv s st) :
    (applyOp (s, st) Op.saveLoad).1.concepts = s.concepts ∧
    StoreInv (applyOp (s, st) Op.saveLoad).1 (applyOp (s, st) Op.saveLoad).2 := by
  rw [applyOp_saveLoad_eq]
  by_cases hc : s.dirty = false ∧ s.loaded = true
  · have hst : st = some (persist s) := hinv hc.1 hc.2
    have h1 : save s st = (s, st) := by rw [save, if_pos hc]
    rw [h1, hst, load_some_eq]
    have h2 : installData s (persist s)
        = { s with concepts := s.concepts, uuidIndex := s.uuidIndex, loaded := true } := by
      simp [installData, persist]
    rw [h2]
    exact ⟨rfl, fun _ _ => rfl⟩
  · have h1 : save s st = ({ s with dirty := false }, some (persist s)) := by
      rw [save, if_neg hc]
    rw [h1, load_some_eq]
    have h2 : installData { s with dirty := false } (persist s)
        = { s with dirty := false, loaded := true } := by
      simp [installData, persist]
    rw [h2]
    exact ⟨rfl, fun _ _ => rfl⟩

/-- Once a key resolves, any sequence of `getOrCreateUUID` calls and
save/load round trips preserves its resolution. -/
theorem resolvesTo_preserved_ops (ops : List Op) (p : State × Option StoredData)
    (n : List Char) (u : Nat) (hres : resolvesTo p.1 n = some u)
    (hinv : StoreInv p.1 p.2) :
    resolvesTo (applyOps p ops).1 n = some u := by
  induction ops generalizing p with
  | nil => exact hres
  | cons op rest ih =>
    rw [applyOps_cons]
    obtain ⟨s, st⟩ := p
    cases op with
    | getOrCreate l t f =>
      rw [applyOp_getOrCreate_eq]
      exact ih ((getOrCreateUUID s l t f).2, st)
        (resolvesTo_preserved_getOrCreate s n u l t f hres)
        (StoreInv_preserved_getOrCreate s st l t f hinv)
    | saveLoad =>
      have h := saveLoad_preserve s st hinv
      apply ih (applyOp (s, st) Op.saveLoad)
      · rw [resolvesTo, h.1]
        exact hres
      · exact h.2

/-- C1: identity stability.  After a first `getOrCreateUUID` call on label `L`,
any sequence of further `getOrCreateUUID` calls (any labels, in any order) and
save-followed-by-load round trips still returns the same uuid for every label
with the same normalized form.  The hypothesis is the store invariant every
reachable registry satisfies: a clean, loaded instance agrees with its file. -/
theorem claim_C1_identity_stability
    (s : State) (stored : Option StoredData) (hinv : StoreInv s stored)
    (L ty src : List Char) (ops : List Op) (L' ty' src' : List Char)
    (hLL : normalizeLabel L' = normalizeLabel L) :
    (getOrCreateUUID
        (applyOps (applyOp (s, stored) (Op.getOrCreate L ty src)) ops).1 L' ty' src').1
      = (getOrCreateUUID s L ty src).1 := by
  have h0 := resolvesTo_after_getOrCreate s L ty src
  have hinv1 : StoreInv (getOrCreateUUID s L ty src).2 stored :=
    StoreInv_preserved_getOrCreate s stored L ty src hinv
  have h2 : resolvesTo (applyOps ((getOrCreateUUID s L ty src).2, stored) ops).1
      (normalizeLabel L) = some (getOrCreateUUID s L ty src).1 :=
    resolvesTo_preserved_ops ops _ _ _ h0 hinv1
  rw [applyOp_getOrCreate_eq]
  have h4 := getOrCreate_of_resolved
    (applyOps ((getOrCreateUUID s L ty src).2, stored) ops).1 L' ty' src'
    (getOrCreateUUID s L ty src).1 (by rw [hLL]; exact h2)
  rw [h4]

/-- After `mergeConcepts` rewired the kept entry and deleted the merged key,
the alias scan finds the kept entry first. -/
theorem find_alias_after_merge (l : List (List Char × Entry)) (kn mn : List Char)
    (hne : kn ≠ mn) (eA : Entry) (hA : alookup kn l = some eA)
    (hno : ∀ pr ∈ l, ¬ mn ∈ pr.2.aliases) (keep : Entry) (hal : mn ∈ keep.aliases) :
    ((mapSet l kn keep).filter (fun pr => pr.1 ≠ mn)).find?
        (fun pr => mn ∈ pr.2.aliases) = some (kn, keep) := by
  induction l with
  | nil => simp [alookup_nil] at hA
  | cons p rest ih =>
    rw [alookup_cons] at hA
    by_cases hk : p.1 = kn
    · rw [if_pos hk] at hA
      rw [mapSet_cons, if_pos hk, List.filter_cons,
        if_pos (by simpa [hk] using hne), List.find?_cons_of_pos _ (by simpa using hal), hk]
    · rw [if_neg hk] at hA
      rw [mapSet_cons, if_neg hk, List.filter_cons]
      have hrest : ∀ pr ∈ rest, ¬ mn ∈ pr.2.aliases :=
        fun pr hpr => hno pr (List.mem_cons_of_mem p hpr)
      by_cases hm : p.1 = mn
      · rw [if_neg (by simpa using hm)]
        exact ih hA hrest
      · rw [if_pos (by simpa using hm),
          List.find?_cons_of_neg _ (by simpa using hno p (List.mem_cons_self p rest))]
        exact ih hA hrest

/-- C8 (amended): merging `B` into `A` deletes `B`'s primary key without any
redirect, so the direct lookup `getUUID(B)` returns nothing; `B`'s normalized
label becomes an alias of `A`'s entry, so the alias scan in `getOrCreateUUID`
still resolves `B` to the uuid `getUUID(A)` returned before the merge (provided
the two labels normalize differently and `B`'s normalized label was not already
someone's alias). -/
theorem claim_C8_merge_redirect_amended
    (s : State) (A B ty src : List Char) (eA eB : Entry)
    (hA : alookup (normalizeLabel A) s.concepts = some eA)
    (hB : alookup (normalizeLabel B) s.concepts = some eB)
    (hne : normalizeLabel A ≠ normalizeLabel B)
    (hno : ∀ pr ∈ s.concepts, ¬ normalizeLabel B ∈ pr.2.aliases) :
    getUUID s A = some eA.uuid ∧
    (mergeConcepts s A B).1 = true ∧
    getUUID (mergeConcepts s A B).2 B = none ∧
    (getOrCreateUUID (mergeConcepts s A B).2 B ty src).1 = eA.uuid := by
  have key : mergeConcepts s A B = (true,
      { s with
        concepts := (mapSet s.concepts (normalizeLabel A)
          { eA with aliases := jsSetDedup (eA.aliases ++ [normalizeLabel B] ++ eB.aliases) }).filter
          (fun pr => pr.1 ≠ normalizeLabel B),
        uuidIndex := s.uuidIndex.filter (fun pr => pr.1 ≠ eB.uuid),
        dirty := true }) := by
    rw [mergeConcepts, hA, hB]
  have hlook : alookup (normalizeLabel B)
      ((mapSet s.concepts (normalizeLabel A)
        { eA with aliases := jsSetDedup (eA.aliases ++ [normalizeLabel B] ++ eB.aliases) }).filter
        (fun pr => pr.1 ≠ normalizeLabel B)) = none :=
    alookup_filter_ne _ _
  have hfind := find_alias_after_merge s.concepts (normalizeLabel A) (normalizeLabel B)
    hne eA hA hno
    { eA with aliases := jsSetDedup (eA.aliases ++ [normalizeLabel B] ++ eB.aliases) }
    ((mem_jsSetDedup _ _).mpr (by simp))
  refine ⟨?_, ?_, ?_, ?_⟩
  · rw [getUUID, hA]
    rfl
  · rw [key]
  · rw [key, getUUID]
    rw [hlook]
    rfl
  · rw [key]
    rw [getOrCreateUUID]
    rw [hlook, hfind]

/-- C8 (counterexample to the claim as stated): with fresh entries for `"A"`
(uuid 0) and `"B"`, `getUUID "A"` returns 0 before the merge, the merge
succeeds, and afterwards the direct lookup `getUUID "B"` returns nothing
rather than 0 — the merged key is deleted with no redirect for `getUUID`. -/
theorem claim_C8_counterexample :
    getUUID ((getOrCreateUUID (getOrCreateUUID emptyState
        "A".data "Axiom".data "d.md".data).2 "B".data "Claim".data "d.md".data).2)
      "A".data = some 0 ∧
    (mergeConcepts ((getOrCreateUUID (getOrCreateUUID emptyState
        "A".data "Axiom".data "d.md".data).2 "B".data "Claim".data "d.md".data).2)
      "A".data "B".data).1 = true ∧
    getUUID (mergeConcepts ((getOrCreateUUID (getOrCreateUUID emptyState
        "A".data "Axiom".data "d.md".data).2 "B".data "Claim".data "d.md".data).2)
      "A".data "B".data).2 "B".data = none := by
  decide

/-- Witness for C8 (amended) on the same concrete registry: after the merge,
`getOrCreateUUID "B"` resolves through the alias scan to uuid 0. -/
theorem claim_C8_witness :
    (getOrCreateUUID (mergeConcepts ((getOrCreateUUID (getOrCreateUUID emptyState
        "A".data "Axiom".data "d.md".data).2 "B".data "Claim".data "d.md".data).2)
      "A".data "B".data).2 "B".data "Axiom".data "e.md".data).1 = 0 :=
  (claim_C8_merge_redirect_amended
    ((getOrCreateUUID (getOrCreateUUID emptyState
      "A".data "Axiom".data "d.md".data).2 "B".data "Claim".data "d.md".data).2)
    "A".data "B".data "Axiom".data "e.md".data
    ⟨0, "A".data, "a".data, "Axiom".data, "d.md".data, []⟩
    ⟨1, "B".data, "b".data, "Claim".data, "d.md".data, []⟩
    (by decide) (by decide) (by decide) (by decide)).2.2.2

/-- Witness for C1 at a concrete run: create `"Energy"`, round-trip the
registry through save/load, create an unrelated label, then ask for
`"  ENERGY "` (same normalized form) and get the original uuid back. -/
theorem claim_C1_witness :
    (getOrCreateUUID
        (applyOps (applyOp (emptyState, (none : Option StoredData))
          (Op.getOrCreate "Energy".data "Claim".data "a.md".data))
          [Op.saveLoad, Op.getOrCreate "flux".data "Claim".data "b.md".data]).1
        "  ENERGY ".data "Axiom".data "c.md".data).1
      = (getOrCreateUUID emptyState "Energy".data "Claim".data "a.md".data).1 :=
  claim_C1_identity_stability emptyState none
    (by intro h1 h2; simp [emptyState] at h2)
    "Energy".data "Claim".data "a.md".data
    [Op.saveLoad, Op.getOrCreate "flux".data "Claim".data "b.md".data]
    "  ENERGY ".data "Axiom".data "c.md".data (by decide)

end ConceptRegistry

/-- C3 (counterexample): `writeTags` trims the trailing whitespace of the body,
so the text outside the tag block is not preserved character-for-character:
on `"Hello \n"` the result is not the document followed by a block, and the
original document does not even occur as a substring of the result. -/
theorem claim_C3_counterexample :
    writeTags "Hello \n".data [⟨"Axiom".data, "u1".data, "L".data, none, none⟩] false
        ≠ "Hello \n".data
          ++ createTagBlock [⟨"Axiom".data, "u1".data, "L".data, none, none⟩] ∧
    containsSub "Hello \n".data
      (writeTags "Hello \n".data
        [⟨"Axiom".data, "u1".data, "L".data, none, none⟩] false) = false := by
  decide

/-! ### Lemmas about the vault indexer -/

namespace VaultIndexer

/-- C4 (counterexample): in the alias-linking scenario the registry does hand
`docC`'s label the same uuid, but `buildIndex` over `docA` and `docC` produces
no relation at all — the claimed strength-1.0 relation does not exist, because
the indexer compares its own normalized labels and never consults the registry
or its aliases. -/
theorem claim_C4_counterexample :
    (buildIndex DEFAULT_CONFIG none none [docA, docC]).relations = [] := by
  decide

/-- C4 (amended): `getOrCreateUUID` resolves the `docC` label through the alias
scan to the uuid minted for `Conservation of Energy`, yet the docA/docC index
contains no relation: index-time grouping is by the indexer's normalized label,
not by registry identity, so the alias link never reaches `buildIndex`. -/
theorem claim_C4_alias_resolves_but_no_relation :
    (ConceptRegistry.getOrCreateUUID
        (ConceptRegistry.addAlias
          (ConceptRegistry.getOrCreateUUID ConceptRegistry.emptyState
            "Conservation of Energy".data "Axiom".data "docA.md".data).2
          "Conservation of Energy".data "energy conservation".data).2
        "Energy Conservation".data "Claim".data "docC.md".data).1
      = (ConceptRegistry.getOrCreateUUID ConceptRegistry.emptyState
          "Conservation of Energy".data "Axiom".data "docA.md".data).1 ∧
    (buildIndex DEFAULT_CONFIG none none [docA, docC]).relations = [] ∧
    (buildIndex DEFAULT_CONFIG none none [docA, docC]).metadata.totalConcepts = 2 := by
  decide

theorem chunksOfFuel_irrel {α : Type} (bs : Nat) :
    ∀ (f1 f2 : Nat) (l : List α), l.length ≤ f1 → l.length ≤ f2 →
      chunksOfFuel f1 bs l = chunksOfFuel f2 bs l := by
  intro f1
  induction f1 with
  | zero =>
    intro f2 l h1 h2
    have : l = [] := List.length_eq_zero.mp (Nat.le_zero.mp h1)
    subst this
    cases f2 <;> rfl
  | succ f ih =>
    intro f2 l h1 h2
    cases l with
    | nil => cases f2 <;> rfl
    | cons x xs =>
      cases f2 with
      | zero => simp at h2
      | succ f2' =>
        rw [chunksOfFuel, chunksOfFuel]
        have hlen : (xs.drop (bs - 1)).length ≤ xs.length := by
          simp
        have hx1 : xs.length ≤ f := by simp at h1; omega
        have hx2 : xs.length ≤ f2' := by simp at h2; omega
        exact congrArg _ (ih f2' (xs.drop (bs - 1))
          (le_trans hlen hx1) (le_trans hlen hx2))

theorem chunksOf_cons {α : Type} (bs : Nat) (x : α) (xs : List α) :
    chunksOf bs (x :: xs)
      = (x :: xs.take (bs - 1)) :: chunksOf bs (xs.drop (bs - 1)) := by
  rw [chunksOf, chunksOf]
  simp only [List.length_cons, chunksOfFuel]
  exact congrArg _ (chunksOfFuel_irrel bs xs.length (xs.drop (bs - 1)).length
    (xs.drop (bs - 1)) (by simp) le_rfl)

theorem scanChunk_none (c : List MdFile) (st : ScanState) :
    scanChunk none c st = c.foldl processFile st := by
  induction c generalizing st with
  | nil => rfl
  | cons f fs ih =>
    rw [scanChunk, abortedAt]
    simp only [Bool.false_eq_true, if_false, List.foldl_cons]
    exact ih (processFile st f)

theorem foldl_processFile_processed (l : List MdFile) (st : ScanState) :
    (l.foldl processFile st).processed = st.processed + l.length := by
  induction l generalizing st with
  | nil => simp
  | cons f fs ih =>
    rw [List.foldl_cons, ih]
    have : (processFile st f).processed = st.processed + 1 := rfl
    rw [this]
    simp only [List.length_cons]
    omega

theorem scanChunk_some (a : Nat) (c : List MdFile) (st : ScanState) :
    scanChunk (some a) c st = (c.take (a - st.processed)).foldl processFile st := by
  induction c generalizing st with
  | nil => simp [scanChunk]
  | cons f fs ih =>
    rw [scanChunk, abortedAt]
    by_cases hk : a ≤ st.processed
    · rw [if_pos (by simpa using hk)]
      have h0 : a - st.processed = 0 := by omega
      rw [h0]
      rfl
    · rw [if_neg (by simpa using hk)]
      rw [ih (processFile st f)]
      have hp : (processFile st f).processed = st.processed + 1 := rfl
      rw [hp]
      have ht : a - st.processed = (a - (st.processed + 1)) + 1 := by omega
      rw [ht, List.take_succ_cons, List.foldl_cons]

/-- Pure-fold characterization of the relation-free part of the scan: with the
flag raised after `a` documents, the scan behaves like folding over the prefix
of `a - processed` further documents; only the warnings list may differ. -/
theorem scanChunks_some_fields (bs a : Nat) (files : List MdFile) (st : ScanState) :
    ∃ w : List (List Char),
      scanChunks (some a) (chunksOf bs files) st
        = { (files.take (a - st.processed)).foldl processFile st with warnings := w } := by
  suffices h : ∀ (n : Nat) (files : List MdFile) (st : ScanState), files.length = n →
      ∃ w : List (List Char),
        scanChunks (some a) (chunksOf bs files) st
          = { (files.take (a - st.processed)).foldl processFile st with warnings := w } from
    h files.length files st rfl
  intro n
  induction n using Nat.strong_induction_on with
  | _ n ih =>
    intro files st hn
    cases files with
    | nil =>
      refine ⟨st.warnings, ?_⟩
      simp [chunksOf, chunksOfFuel, scanChunks]
    | cons x xs =>
      rw [chunksOf_cons, scanChunks, abortedAt]
      by_cases hk : a ≤ st.processed
      · rw [if_pos (by simpa using hk)]
        have h0 : a - st.processed = 0 := by omega
        rw [h0]
        exact ⟨st.warnings ++ [abortMsg], rfl⟩
      · rw [if_neg (by simpa using hk)]
        rw [scanChunk_some]
        set B : Nat := (bs - 1) + 1 with hB
        have hchunk : x :: xs.take (bs - 1) = (x :: xs).take B := by
          rw [hB, List.take_succ_cons]
        have hrest : xs.drop (bs - 1) = (x :: xs).drop B := by
          rw [hB, List.drop_succ_cons]
        set t : Nat := a - st.processed with hT
        have ht1 : 1 ≤ t := by omega
        set L : Nat := (x :: xs.take (bs - 1)).length with hL
        have hlen : (xs.drop (bs - 1)).length < n := by
          rw [← hn]
          simp only [List.length_cons, List.length_drop]
          omega
        obtain ⟨w, hw⟩ := ih _ hlen (xs.drop (bs - 1))
          (((x :: xs.take (bs - 1)).take t).foldl processFile st) rfl
        refine ⟨w, ?_⟩
        rw [hw]
        have hproc : (((x :: xs.take (bs - 1)).take t).foldl processFile st).processed
            = st.processed + min t L := by
          rw [foldl_processFile_processed, List.length_take, hL]
        have hE : ((xs.drop (bs - 1)).take
              (a - (((x :: xs.take (bs - 1)).take t).foldl processFile st).processed)).foldl
              processFile (((x :: xs.take (bs - 1)).take t).foldl processFile st)
            = ((x :: xs).take t).foldl processFile st := by
          rw [hproc, hrest, hchunk]
          have hLB : L = min B (x :: xs).length := by
            rw [hL, hchunk, List.length_take]
          by_cases hcase : t ≤ L
          · have hmin : min t L = t := by omega
            rw [hmin]
            have hz : a - (st.processed + t) = 0 := by omega
            rw [hz]
            simp only [List.take_zero, List.foldl_nil]
            rw [List.take_take]
            have : min t B = t := by omega
            rw [this]
          · have hmin : min t L = L := by omega
            rw [hmin]
            have htake : ((x :: xs).take B).take t = (x :: xs).take B := by
              apply List.take_of_length_le
              rw [List.length_take]
              omega
            rw [htake]
            by_cases hshort : (x :: xs).length ≤ B
            · have hfull : (x :: xs).take B = x :: xs := List.take_of_length_le hshort
              have hdropnil : (x :: xs).drop B = [] := by
                rw [List.drop_eq_nil_iff]
                exact hshort
              rw [hfull, hdropnil]
              simp only [List.take_nil, List.foldl_nil]
              have : (x :: xs).take t = x :: xs := by
                apply List.take_of_length_le
                omega
              rw [this]
            · have hLB2 : L = B := by omega
              rw [hLB2]
              rw [← List.foldl_append]
              have hsplit : (x :: xs).take (B + (a - (st.processed + B)))
                  = (x :: xs).take B ++ ((x :: xs).drop B).take (a - (st.processed + B)) :=
                List.take_add _ _ _
              have harith : B + (a - (st.processed + B)) = t := by omega
              rw [harith] at hsplit
              rw [← hsplit]
        rw [hE]

theorem mapSet_fresh {α β : Type} [DecidableEq α] (l : List (α × β)) (k : α) (v : β)
    (h : ¬ k ∈ l.map Prod.fst) : mapSet l k v = l ++ [(k, v)] := by
  induction l with
  | nil => rfl
  | cons p rest ih =>
    have h1 : ¬ p.1 = k := by
      intro he
      exact h (by simp [he])
    have h2 : ¬ k ∈ rest.map Prod.fst := by
      intro he
      exact h (by simp [he])
    rw [mapSet_cons, if_neg h1, ih h2]
    rfl

/-- With pairwise distinct, previously unseen paths, the scan fold records
exactly one file-index entry per document, in order. -/
theorem foldl_processFile_fileIndex (l : List MdFile) (st : ScanState)
    (hdisj : ∀ f ∈ l, ¬ f.path ∈ st.fileIndex.map Prod.fst)
    (hnd : (l.map (fun f => f.path)).Nodup) :
    (l.foldl processFile st).fileIndex
      = st.fileIndex
        ++ l.map (fun f => (f.path, (parseTags f.content).map (fun pt => pt.tag))) := by
  induction l generalizing st with
  | nil => simp
  | cons f fs ih =>
    have hnd' : ¬ f.path ∈ fs.map (fun g => g.path) ∧ (fs.map (fun g => g.path)).Nodup := by
      rw [List.map_cons, List.nodup_cons] at hnd
      exact hnd
    rw [List.foldl_cons]
    have hfi : (processFile st f).fileIndex
        = st.fileIndex ++ [(f.path, (parseTags f.content).map (fun pt => pt.tag))] := by
      have h0 : (processFile st f).fileIndex
          = mapSet st.fileIndex f.path ((parseTags f.content).map (fun pt => pt.tag)) := rfl
      rw [h0, mapSet_fresh _ _ _ (hdisj f (List.mem_cons_self f fs))]
    have hdisj' : ∀ g ∈ fs, ¬ g.path ∈ (processFile st f).fileIndex.map Prod.fst := by
      intro g hg
      rw [hfi]
      simp only [List.map_append, List.mem_append]
      rintro (hcase | hcase)
      · exact hdisj g (List.mem_cons_of_mem f hg) hcase
      · simp at hcase
        exact hnd'.1 (hcase ▸ List.mem_map_of_mem (fun g => g.path) hg)
    rw [ih (processFile st f) hdisj' hnd'.2, hfi]
    simp

theorem scanChunks_none (bs : Nat) (files : List MdFile) (st : ScanState) :
    scanChunks none (chunksOf bs files) st = files.foldl processFile st := by
  suffices h : ∀ (n : Nat) (files : List MdFile) (st : ScanState), files.length = n →
      scanChunks none (chunksOf bs files) st = files.foldl processFile st from
    h files.length files st rfl
  intro n
  induction n using Nat.strong_induction_on with
  | _ n ih =>
    intro files st hn
    cases files with
    | nil => simp [chunksOf, chunksOfFuel, scanChunks]
    | cons x xs =>
      rw [chunksOf_cons, scanChunks, abortedAt]
      simp only [Bool.false_eq_true, if_false]
      rw [scanChunk_none]
      have hlt : (xs.drop (bs - 1)).length < n := by
        rw [← hn]
        simp only [List.length_cons, List.length_drop]
        omega
      rw [ih _ hlt _ _ rfl]
      rw [← List.foldl_append]
      congr 1
      rw [List.cons_append, List.take_append_drop]

/-- C7 (counterexample): abort after 1 of 2 documents.  `buildIndex` returns a
partial index with `wasAborted: true` and one scanned document in the file
index, but `metadata.totalFiles` is 2 — the full in-scope corpus size, not the
number of documents scanned before the flag was observed. -/
theorem claim_C7_counterexample :
    (buildIndex DEFAULT_CONFIG (some 1) none [docA, docC]).metadata.wasAborted = true ∧
    (buildIndex DEFAULT_CONFIG (some 1) none [docA, docC]).fileIndex.length = 1 ∧
    (buildIndex DEFAULT_CONFIG (some 1) none [docA, docC]).metadata.totalFiles = 2 ∧
    (buildIndex DEFAULT_CONFIG (some 1) none [docA, docC]).metadata.totalFiles
      ≠ (buildIndex DEFAULT_CONFIG (some 1) none [docA, docC]).fileIndex.length := by
  decide

/-- C7 (amended): when the abort flag is observed mid-scan, `buildIndex`
returns normally with `wasAborted: true` and an empty relation list; the
number of documents actually scanned is the file index's size, while
`metadata.totalFiles` holds the full in-scope corpus size. -/
theorem claim_C7_abort_amended (cfg : Config) (folderPath : Option (List Char))
    (files : List MdFile) (a : Nat)
    (hnd : ((getFilesInScope cfg folderPath files).map (fun f => f.path)).Nodup)
    (ha : a < (getFilesInScope cfg folderPath files).length) :
    (buildIndex cfg (some a) folderPath files).metadata.wasAborted = true ∧
    (buildIndex cfg (some a) folderPath files).metadata.totalFiles
      = (getFilesInScope cfg folderPath files).length ∧
    (buildIndex cfg (some a) folderPath files).relations = [] ∧
    (buildIndex cfg (some a) folderPath files).fileIndex.length = a := by
  obtain ⟨w, hw⟩ := scanChunks_some_fields cfg.batchSize a
    (getFilesInScope cfg folderPath files) initialScanState
  have hini : initialScanState.processed = 0 := rfl
  have hlen : ((getFilesInScope cfg folderPath files).take
      (a - initialScanState.processed)).length = a := by
    rw [hini, Nat.sub_zero, List.length_take]
    omega
  have hproc : (scanChunks (some a)
      (chunksOf cfg.batchSize (getFilesInScope cfg folderPath files))
      initialScanState).processed = a := by
    rw [hw]
    show (((getFilesInScope cfg folderPath files).take
      (a - initialScanState.processed)).foldl processFile initialScanState).processed = a
    rw [foldl_processFile_processed, hlen, hini]
    omega
  have habort : abortedAt (some a) (scanChunks (some a)
      (chunksOf cfg.batchSize (getFilesInScope cfg folderPath files))
      initialScanState).processed = true := by
    rw [hproc, abortedAt]
    simp
  have hfil : (scanChunks (some a)
      (chunksOf cfg.batchSize (getFilesInScope cfg folderPath files))
      initialScanState).fileIndex.length = a := by
    rw [hw]
    show (((getFilesInScope cfg folderPath files).take
      (a - initialScanState.processed)).foldl processFile initialScanState).fileIndex.length = a
    rw [foldl_processFile_fileIndex _ _ (by intro f hf; simp [initialScanState])
      (by rw [List.map_take]
          exact hnd.sublist (List.take_sublist _ _))]
    have : initialScanState.fileIndex = [] := rfl
    rw [this]
    simpa using hlen
  simp only [buildIndex]
  rw [habort]
  simp only [Bool.true_eq_false, false_and, if_false]
  exact ⟨trivial, trivial, trivial, hfil⟩

theorem foldl_processFile_warnings (l : List MdFile) (st : ScanState) :
    (l.foldl processFile st).warnings = st.warnings := by
  induction l generalizing st with
  | nil => rfl
  | cons f fs ih =>
    rw [List.foldl_cons, ih]
    rfl

theorem mem_keyed_unique {α β : Type} [DecidableEq α] (l : List (α × β)) (k : α)
    (v1 v2 : β) (h1 : (k, v1) ∈ l) (h2 : (k, v2) ∈ l)
    (hnd : (l.map Prod.fst).Nodup) : v1 = v2 := by
  induction l with
  | nil => cases h1
  | cons x xs ih =>
    rw [List.map_cons, List.nodup_cons] at hnd
    rcases List.mem_cons.mp h1 with he1 | hm1
    · rcases List.mem_cons.mp h2 with he2 | hm2
      · rw [← he1] at he2
        exact (Prod.mk.injEq _ _ _ _ ▸ he2).2.symm
      · exfalso
        apply hnd.1
        have hmem : k ∈ xs.map Prod.fst := List.mem_map_of_mem Prod.fst hm2
        rw [← he1]
        exact hmem
    · rcases List.mem_cons.mp h2 with he2 | hm2
      · exfalso
        apply hnd.1
        have hmem : k ∈ xs.map Prod.fst := List.mem_map_of_mem Prod.fst hm1
        rw [← he2]
        exact hmem
      · exact ih hm1 hm2 hnd.2

theorem touches_comm (p q : List Char) (r : CrossDocumentRelation) :
    touches p q r = touches q p r := by
  simp [touches, or_comm]

theorem pairLoop_false_cons (p : List Char × List (List Char))
    (rest : List (List Char × List (List Char))) :
    pairLoop false (p :: rest) = pairInner p rest ++ pairLoop false rest := by
  simp [pairLoop]

theorem pairInner_mem (p : List Char × List (List Char))
    (rest : List (List Char × List (List Char))) (r : CrossDocumentRelation)
    (hr : r ∈ pairInner p rest) :
    r.sourceFile = p.1 ∧ r.targetFile ∈ rest.map Prod.fst := by
  rw [pairInner, List.mem_filterMap] at hr
  obtain ⟨q, hq, hqr⟩ := hr
  by_cases hs : 0 < (p.2.filter (fun c => c ∈ q.2)).length
  · rw [if_pos hs] at hqr
    cases hqr
    exact ⟨rfl, List.mem_map_of_mem Prod.fst hq⟩
  · rw [if_neg hs] at hqr
    cases hqr

theorem pairLoop_mem_keys (L : List (List Char × List (List Char)))
    (r : CrossDocumentRelation) (hr : r ∈ pairLoop false L) :
    r.sourceFile ∈ L.map Prod.fst ∧ r.targetFile ∈ L.map Prod.fst := by
  induction L with
  | nil => cases hr
  | cons x xs ih =>
    rw [pairLoop_false_cons, List.mem_append] at hr
    rcases hr with hr | hr
    · have := pairInner_mem x xs r hr
      exact ⟨by simp [this.1], by simp [List.mem_cons_of_mem, this.2]⟩
    · have := ih hr
      exact ⟨by simp [this.1], by simp [this.2]⟩

theorem pairLoop_countP_zero (L : List (List Char × List (List Char)))
    (P Q : List Char) (h : ¬ P ∈ L.map Prod.fst ∨ ¬ Q ∈ L.map Prod.fst) :
    (pairLoop false L).countP (touches P Q) = 0 := by
  rw [List.countP_eq_zero]
  intro r hr
  have hk := pairLoop_mem_keys L r hr
  simp only [touches, decide_eq_true_eq]
  rintro (⟨h1, h2⟩ | ⟨h1, h2⟩) <;> rcases h with h | h
  · exact h (h1 ▸ hk.1)
  · exact h (h2 ▸ hk.2)
  · exact h (h2 ▸ hk.2)
  · exact h (h1 ▸ hk.1)

theorem pairInner_countP_zero (p : List Char × List (List Char))
    (rest : List (List Char × List (List Char))) (P Q : List Char)
    (h : (p.1 ≠ P ∧ p.1 ≠ Q)
      ∨ (p.1 ≠ Q ∧ ¬ Q ∈ rest.map Prod.fst)
      ∨ (p.1 ≠ P ∧ ¬ P ∈ rest.map Prod.fst)) :
    (pairInner p rest).countP (touches P Q) = 0 := by
  rw [List.countP_eq_zero]
  intro r hr
  have hk := pairInner_mem p rest r hr
  simp only [touches, decide_eq_true_eq]
  rintro (⟨h1, h2⟩ | ⟨h1, h2⟩)
  · -- source is P, target is Q
    have hpP : p.1 = P := by rw [← h1, hk.1]
    have hQk : Q ∈ rest.map Prod.fst := h2 ▸ hk.2
    rcases h with ⟨hc, _⟩ | ⟨_, hc⟩ | ⟨hc, _⟩
    · exact hc hpP
    · exact hc hQk
    · exact hc hpP
  · -- source is Q, target is P
    have hpQ : p.1 = Q := by rw [← h1, hk.1]
    have hPk : P ∈ rest.map Prod.fst := h2 ▸ hk.2
    rcases h with ⟨_, hc⟩ | ⟨hc, _⟩ | ⟨_, hc⟩
    · exact hc hpQ
    · exact hc hpQ
    · exact hc hPk

theorem pairInner_cons (p y : List Char × List (List Char))
    (ys : List (List Char × List (List Char))) :
    pairInner p (y :: ys)
      = if 0 < (p.2.filter (fun c => c ∈ y.2)).length then
          (⟨p.1, y.1, p.2.filter (fun c => c ∈ y.2),
            ((p.2.filter (fun c => c ∈ y.2)).length : ℚ)
              / (max p.2.length y.2.length : ℚ)⟩ : CrossDocumentRelation)
            :: pairInner p ys
        else pairInner p ys := by
  by_cases hs : 0 < (p.2.filter (fun c => c ∈ y.2)).length
  · rw [if_pos hs]
    simp only [pairInner, List.filterMap_cons, if_pos hs]
  · rw [if_neg hs]
    simp only [pairInner, List.filterMap_cons, if_neg hs]

theorem pairInner_countP (P : List Char) (sP : List (List Char))
    (rest : List (List Char × List (List Char))) (Q : List Char) (sQ : List (List Char))
    (hPQ : P ≠ Q) (hQ : (Q, sQ) ∈ rest) (hnd : (rest.map Prod.fst).Nodup) :
    (pairInner (P, sP) rest).countP (touches P Q)
      = if sP.filter (fun c => c ∈ sQ) ≠ [] then 1 else 0 := by
  induction rest with
  | nil => cases hQ
  | cons y ys ih =>
    rw [List.map_cons, List.nodup_cons] at hnd
    by_cases hy : y.1 = Q
    · have hyv : y = (Q, sQ) := by
        rcases List.mem_cons.mp hQ with he | hm
        · exact he.symm
        · exact absurd (List.mem_map_of_mem Prod.fst hm) (hy ▸ hnd.1)
      subst hyv
      have hQnot : ¬ Q ∈ ys.map Prod.fst := hnd.1
      have hzero : (pairInner (P, sP) ys).countP (touches P Q) = 0 :=
        pairInner_countP_zero (P, sP) ys P Q (Or.inr (Or.inl ⟨hPQ, hQnot⟩))
      rw [pairInner_cons]
      by_cases hsh : 0 < (sP.filter (fun c => c ∈ sQ)).length
      · rw [if_pos hsh, List.countP_cons, hzero]
        have htr : touches P Q
            ⟨P, Q, sP.filter (fun c => c ∈ sQ),
              ((sP.filter (fun c => c ∈ sQ)).length : ℚ)
                / (max sP.length sQ.length : ℚ)⟩ = true := by
          simp [touches]
        rw [htr, if_pos (List.length_pos.mp hsh)]
        simp
      · rw [if_neg hsh, hzero, if_neg (by simpa using hsh)]
    · have hQ' : (Q, sQ) ∈ ys := by
        rcases List.mem_cons.mp hQ with he | hm
        · exact absurd (congrArg Prod.fst he.symm) hy
        · exact hm
      rw [pairInner_cons]
      by_cases hs : 0 < (sP.filter (fun c => c ∈ y.2)).length
      · rw [if_pos hs, List.countP_cons]
        have htr : touches P Q
            ⟨P, y.1, sP.filter (fun c => c ∈ y.2),
              ((sP.filter (fun c => c ∈ y.2)).length : ℚ)
                / (max sP.length y.2.length : ℚ)⟩ = false := by
          simp only [touches, decide_eq_false_iff_not]
          rintro (⟨h1, h2⟩ | ⟨h1, h2⟩)
          · exact hy h2
          · exact hPQ h1
        rw [htr, ih hQ' hnd.2]
        simp
      · rw [if_neg hs, ih hQ' hnd.2]

theorem pairLoop_countP (L : List (List Char × List (List Char)))
    (P Q : List Char) (sP sQ : List (List Char)) (hPQ : P ≠ Q)
    (hP : (P, sP) ∈ L) (hQ : (Q, sQ) ∈ L) (hnd : (L.map Prod.fst).Nodup) :
    (pairLoop false L).countP (touches P Q)
      = if sP.filter (fun c => c ∈ sQ) ≠ [] then 1 else 0 := by
  induction L with
  | nil => cases hP
  | cons x xs ih =>
    rw [List.map_cons, List.nodup_cons] at hnd
    rw [pairLoop_false_cons, List.countP_append]
    by_cases hxP : x.1 = P
    · have hx : x = (P, sP) := by
        rcases List.mem_cons.mp hP with he | hm
        · exact he.symm
        · exact absurd (List.mem_map_of_mem Prod.fst hm) (hxP ▸ hnd.1)
      subst hx
      have hQ' : (Q, sQ) ∈ xs := by
        rcases List.mem_cons.mp hQ with he | hm
        · exact absurd (congrArg Prod.fst he) (fun hc => hPQ hc.symm)
        · exact hm
      rw [pairInner_countP P sP xs Q sQ hPQ hQ' hnd.2,
        pairLoop_countP_zero xs P Q (Or.inl hnd.1)]
      simp
    · by_cases hxQ : x.1 = Q
      · have hx : x = (Q, sQ) := by
          rcases List.mem_cons.mp hQ with he | hm
          · exact he.symm
          · exact absurd (List.mem_map_of_mem Prod.fst hm) (hxQ ▸ hnd.1)
        subst hx
        have hP' : (P, sP) ∈ xs := by
          rcases List.mem_cons.mp hP with he | hm
          · exact absurd (congrArg Prod.fst he) (fun hc => hPQ hc)
          · exact hm
        have hc : (pairInner (Q, sQ) xs).countP (touches P Q)
            = (pairInner (Q, sQ) xs).countP (touches Q P) :=
          List.countP_congr (fun r _ => by rw [touches_comm P Q r])
        rw [hc, pairInner_countP Q sQ xs P sP (Ne.symm hPQ) hP' hnd.2,
          pairLoop_countP_zero xs P Q (Or.inr hnd.1)]
        have hbridge : ∀ (u v : List (List Char)),
            u.filter (fun c => c ∈ v) ≠ [] → v.filter (fun c => c ∈ u) ≠ [] := by
          intro u v h
          simp only [ne_eq, List.filter_eq_nil_iff, decide_eq_true_eq] at h ⊢
          push_neg at h ⊢
          obtain ⟨a, ha, hb⟩ := h
          exact ⟨a, hb, ha⟩
        by_cases hcc : sQ.filter (fun c => c ∈ sP) ≠ []
        · rw [if_pos hcc, if_pos (hbridge sQ sP hcc)]
        · rw [if_neg hcc, if_neg (fun hc2 => hcc (hbridge sP sQ hc2))]
      · have hP' : (P, sP) ∈ xs := by
          rcases List.mem_cons.mp hP with he | hm
          · exact absurd (congrArg Prod.fst he.symm) hxP
          · exact hm
        have hQ' : (Q, sQ) ∈ xs := by
          rcases List.mem_cons.mp hQ with he | hm
          · exact absurd (congrArg Prod.fst he.symm) hxQ
          · exact hm
        rw [pairInner_countP_zero x xs P Q (Or.inl ⟨hxP, hxQ⟩), ih hP' hQ' hnd.2]
        simp

theorem pairLoop_strength (L : List (List Char × List (List Char)))
    (P Q : List Char) (sP sQ : List (List Char)) (hPQ : P ≠ Q)
    (hP : (P, sP) ∈ L) (hQ : (Q, sQ) ∈ L) (hnd : (L.map Prod.fst).Nodup) :
    ∀ r ∈ pairLoop false L, touches P Q r = true →
      r = ⟨P, Q, sP.filter (fun c => c ∈ sQ),
            ((sP.filter (fun c => c ∈ sQ)).length : ℚ) / (max sP.length sQ.length : ℚ)⟩
      ∨ r = ⟨Q, P, sQ.filter (fun c => c ∈ sP),
            ((sQ.filter (fun c => c ∈ sP)).length : ℚ)
              / (max sQ.length sP.length : ℚ)⟩ := by
  induction L with
  | nil =>
    intro r hr
    cases hr
  | cons x xs ih =>
    have hnd' := hnd
    rw [List.map_cons, List.nodup_cons] at hnd'
    intro r hr ht
    rw [pairLoop_false_cons, List.mem_append] at hr
    rcases hr with hr | hr
    · rw [pairInner, List.mem_filterMap] at hr
      obtain ⟨y, hy, hgy⟩ := hr
      by_cases hs : 0 < (x.2.filter (fun c => c ∈ y.2)).length
      · rw [if_pos hs] at hgy
        cases hgy
        simp only [touches, decide_eq_true_eq] at ht
        rcases ht with ⟨h1, h2⟩ | ⟨h1, h2⟩
        · left
          have hxm : (P, x.2) ∈ x :: xs := by
            rw [← h1]
            exact List.mem_cons_self x xs
          have hx2 : x.2 = sP := mem_keyed_unique (x :: xs) P x.2 sP hxm hP hnd
          have hym : (Q, y.2) ∈ xs := by
            rw [← h2]
            exact hy
          have hQ' : (Q, sQ) ∈ xs := by
            rcases List.mem_cons.mp hQ with he | hm
            · exact absurd (congrArg Prod.fst he) (fun hc => hPQ (h1 ▸ hc.symm))
            · exact hm
          have hy2 : y.2 = sQ := mem_keyed_unique xs Q y.2 sQ hym hQ' hnd'.2
          rw [h1, h2, hx2, hy2]
        · right
          have hxm : (Q, x.2) ∈ x :: xs := by
            rw [← h1]
            exact List.mem_cons_self x xs
          have hx2 : x.2 = sQ := mem_keyed_unique (x :: xs) Q x.2 sQ hxm hQ hnd
          have hym : (P, y.2) ∈ xs := by
            rw [← h2]
            exact hy
          have hP' : (P, sP) ∈ xs := by
            rcases List.mem_cons.mp hP with he | hm
            · exact absurd (congrArg Prod.fst he) (fun hc => hPQ (hc.trans h1))
            · exact hm
          have hy2 : y.2 = sP := mem_keyed_unique xs P y.2 sP hym hP' hnd'.2
          rw [h1, h2, hx2, hy2]
      · rw [if_neg hs] at hgy
        cases hgy
    · have hk := pairLoop_mem_keys xs r hr
      simp only [touches, decide_eq_true_eq] at ht
      by_cases hxP : x.1 = P
      · exfalso
        rcases ht with ⟨h1, _⟩ | ⟨_, h2⟩
        · exact hnd'.1 (hxP ▸ h1 ▸ hk.1)
        · exact hnd'.1 (hxP ▸ h2 ▸ hk.2)
      · by_cases hxQ : x.1 = Q
        · exfalso
          rcases ht with ⟨_, h2⟩ | ⟨h1, _⟩
          · exact hnd'.1 (hxQ ▸ h2 ▸ hk.2)
          · exact hnd'.1 (hxQ ▸ h1 ▸ hk.1)
        · have hP' : (P, sP) ∈ xs := by
            rcases List.mem_cons.mp hP with he | hm
            · exact absurd (congrArg Prod.fst he.symm) hxP
            · exact hm
          have hQ' : (Q, sQ) ∈ xs := by
            rcases List.mem_cons.mp hQ with he | hm
            · exact absurd (congrArg Prod.fst he.symm) hxQ
            · exact hm
          exact ih hP' hQ' hnd'.2 r hr (by simp [touches, ht])

/-- Under a faithful scan (no abort, distinct paths), the documents owning at
least one parsed tag are exactly the in-scope files with a nonempty parse. -/
theorem fwt_of_scan (cfg : Config) (folderPath : Option (List Char))
    (files : List MdFile)
    (hnd : ((getFilesInScope cfg folderPath files).map (fun f => f.path)).Nodup) :
    (((scanChunks none (chunksOf cfg.batchSize (getFilesInScope cfg folderPath files))
        initialScanState).fileIndex.filter (fun pr => 0 < pr.2.length)).map
        (fun pr => pr.1))
      = ((getFilesInScope cfg folderPath files).filter
          (fun f => 0 < (parseTags f.content).length)).map (fun f => f.path) := by
  rw [scanChunks_none,
    foldl_processFile_fileIndex _ _ (by intro f hf; simp [initialScanState]) hnd]
  have h0 : initialScanState.fileIndex = [] := rfl
  rw [h0, List.nil_append, List.filter_map, List.map_map]
  have hpred : ∀ f : MdFile,
      ((fun pr : List Char × List SemanticTag => decide (0 < pr.2.length)) ∘
        (fun f : MdFile => (f.path, (parseTags f.content).map (fun pt => pt.tag)))) f
        = decide (0 < (parseTags f.content).length) := by
    intro f
    simp
  rw [List.filter_congr (fun f _ => hpred f)]
  rfl

/-- Looking up a key in a keyed map of distinct-path files returns that file's
value. -/
theorem alookup_map_path {β : Type} (l : List MdFile) (F : MdFile → β) (f : MdFile)
    (hf : f ∈ l) (hnd : (l.map (fun g => g.path)).Nodup) :
    alookup f.path (l.map (fun g => (g.path, F g))) = some (F f) := by
  induction l with
  | nil => cases hf
  | cons g gs ih =>
    rw [List.map_cons, List.nodup_cons] at hnd
    rw [List.map_cons, alookup]
    by_cases hgf : g.path = f.path
    · rw [if_pos hgf]
      have hfg : f = g := by
        rcases List.mem_cons.mp hf with he | hm
        · exact he
        · exact absurd (hgf.symm ▸ List.mem_map_of_mem (fun g => g.path) hm) hnd.1
      rw [hfg]
    · rw [if_neg hgf]
      have hm : f ∈ gs := by
        rcases List.mem_cons.mp hf with he | hm
        · exact absurd (congrArg (fun x => x.path) he).symm hgf
        · exact hm
      exact ih hm hnd.2

/-- Re-keying a path list back through a per-file function. -/
theorem map_path_keyed {β : Type} (FL : List MdFile) (G : List Char → β) (H : MdFile → β)
    (hpt : ∀ f ∈ FL, G f.path = H f) :
    (FL.map (fun f => f.path)).map (fun pth => (pth, G pth))
      = FL.map (fun f => (f.path, H f)) := by
  induction FL with
  | nil => rfl
  | cons f fs ih =>
    simp only [List.map_cons, List.cons.injEq]
    exact ⟨by rw [hpt f (List.mem_cons_self f fs)],
      ih (fun g hg => hpt g (List.mem_cons_of_mem f hg))⟩

/-- Intersection size is symmetric for duplicate-free label lists. -/
theorem length_filter_mem_comm_cs (l1 l2 : List (List Char))
    (h1 : l1.Nodup) (h2 : l2.Nodup) :
    (l1.filter (fun c => c ∈ l2)).length = (l2.filter (fun c => c ∈ l1)).length := by
  have e1 : (l1.filter (fun c => c ∈ l2)).toFinset = l1.toFinset ∩ l2.toFinset := by
    ext a
    simp [List.mem_filter]
  have e2 : (l2.filter (fun c => c ∈ l1)).toFinset = l2.toFinset ∩ l1.toFinset := by
    ext a
    simp [List.mem_filter]
  calc (l1.filter (fun c => c ∈ l2)).length
      = (l1.filter (fun c => c ∈ l2)).toFinset.card :=
        (List.toFinset_card_of_nodup (h1.filter _)).symm
    _ = (l1.toFinset ∩ l2.toFinset).card := by rw [e1]
    _ = (l2.toFinset ∩ l1.toFinset).card := by rw [Finset.inter_comm]
    _ = (l2.filter (fun c => c ∈ l1)).toFinset.card := by rw [e2]
    _ = (l2.filter (fun c => c ∈ l1)).length :=
      List.toFinset_card_of_nodup (h2.filter _)

theorem conceptSetOfFile_nodup (f : MdFile) : (conceptSetOfFile f).Nodup :=
  jsSetDedup_nodup _

/-- The relation strength is symmetric in the two documents. -/
theorem pairStrength_comm (p q : MdFile) : pairStrength p q = pairStrength q p := by
  unfold pairStrength sharedConceptsOf
  rw [length_filter_mem_comm_cs (conceptSetOfFile p) (conceptSetOfFile q)
    (conceptSetOfFile_nodup p) (conceptSetOfFile_nodup q),
    max_comm ((conceptSetOfFile p).length : ℚ) ((conceptSetOfFile q).length : ℚ)]

theorem pairStrength_nonneg (p q : MdFile) : 0 ≤ pairStrength p q := by
  unfold pairStrength
  positivity

theorem pairStrength_le_one (p q : MdFile) (hp : conceptSetOfFile p ≠ []) :
    pairStrength p q ≤ 1 := by
  have hpos : 0 < max (conceptSetOfFile p).length (conceptSetOfFile q).length := by
    have h1 := List.length_pos.mpr hp
    omega
  have hle : (sharedConceptsOf p q).length
      ≤ max (conceptSetOfFile p).length (conceptSetOfFile q).length := by
    have h1 : (sharedConceptsOf p q).length ≤ (conceptSetOfFile p).length :=
      List.length_filter_le _ _
    omega
  unfold pairStrength
  rw [div_le_one (by exact_mod_cast hpos)]
  exact_mod_cast hle

/-- C6: the O(n²) guard.  With no abort, when the number of scanned documents
having at least one parsed tag exceeds `maxRelationFiles`, `buildIndex`
returns (totally, hence without throwing) a snapshot with an empty relation
list, `skippedRelations: true`, and the skip recorded in the warnings. -/
theorem claim_C6_relation_guard (cfg : Config) (folderPath : Option (List Char))
    (files : List MdFile)
    (hnd : ((getFilesInScope cfg folderPath files).map (fun f => f.path)).Nodup)
    (hguard : ((getFilesInScope cfg folderPath files).filter
        (fun f => 0 < (parseTags f.content).length)).length > cfg.maxRelationFiles) :
    (buildIndex cfg none folderPath files).relations = [] ∧
    (buildIndex cfg none folderPath files).metadata.skippedRelations = true ∧
    skipMsg ((getFilesInScope cfg folderPath files).filter
        (fun f => 0 < (parseTags f.content).length)).length
      ∈ (buildIndex cfg none folderPath files).metadata.warnings := by
  simp only [buildIndex]
  set ST := scanChunks none (chunksOf cfg.batchSize (getFilesInScope cfg folderPath files))
    initialScanState with hST
  have habort : abortedAt none ST.processed = false := rfl
  have hlenfwt : ((ST.fileIndex.filter (fun pr => 0 < pr.2.length)).map
      (fun pr => pr.1)).length
      = ((getFilesInScope cfg folderPath files).filter
          (fun f => 0 < (parseTags f.content).length)).length := by
    rw [hST, fwt_of_scan cfg folderPath files hnd, List.length_map]
  have hwarn : ST.warnings = [] := by
    rw [hST, scanChunks_none, foldl_processFile_warnings]
    rfl
  rw [habort, hlenfwt]
  rw [if_neg (by intro hcon; omega), if_pos rfl]
  refine ⟨rfl, rfl, ?_⟩
  rw [hwarn]
  simp

/-- Witness for C6: three tagged documents against a relation ceiling of two. -/
theorem claim_C6_witness :
    (buildIndex { DEFAULT_CONFIG with maxRelationFiles := 2 } none none
      [docA, docB, docC]).relations = [] ∧
    (buildIndex { DEFAULT_CONFIG with maxRelationFiles := 2 } none none
      [docA, docB, docC]).metadata.skippedRelations = true ∧
    skipMsg (([docA, docB, docC].filter
        (fun f => 0 < (parseTags f.content).length)).length)
      ∈ (buildIndex { DEFAULT_CONFIG with maxRelationFiles := 2 } none none
          [docA, docB, docC]).metadata.warnings := by
  have h := claim_C6_relation_guard { DEFAULT_CONFIG with maxRelationFiles := 2 } none
    [docA, docB, docC] (by decide) (by decide)
  have hscope : getFilesInScope { DEFAULT_CONFIG with maxRelationFiles := 2 } none
      [docA, docB, docC] = [docA, docB, docC] := by decide
  rw [hscope] at h
  exact h

/-- Witness for C7 (amended) on the concrete two-document corpus, aborting
after one document. -/
theorem claim_C7_witness :
    (buildIndex DEFAULT_CONFIG (some 1) none [docA, docC]).metadata.wasAborted = true ∧
    (buildIndex DEFAULT_CONFIG (some 1) none [docA, docC]).metadata.totalFiles
      = (getFilesInScope DEFAULT_CONFIG none [docA, docC]).length ∧
    (buildIndex DEFAULT_CONFIG (some 1) none [docA, docC]).relations = [] ∧
    (buildIndex DEFAULT_CONFIG (some 1) none [docA, docC]).fileIndex.length = 1 :=
  claim_C7_abort_amended DEFAULT_CONFIG none [docA, docC] 1 (by decide) (by decide)

/-- With distinct paths and no abort, the scan's file index lists every
in-scope document with its parsed tags, in order. -/
theorem fileIndex_of_scan (cfg : Config) (folderPath : Option (List Char))
    (files : List MdFile)
    (hnd : ((getFilesInScope cfg folderPath files).map (fun f => f.path)).Nodup) :
    (scanChunks none (chunksOf cfg.batchSize (getFilesInScope cfg folderPath files))
        initialScanState).fileIndex
      = (getFilesInScope cfg folderPath files).map
          (fun f => (f.path, (parseTags f.content).map (fun pt => pt.tag))) := by
  rw [scanChunks_none,
    foldl_processFile_fileIndex _ _ (by intro g hg; simp [initialScanState]) hnd]
  rfl

/-- With no abort and the guard satisfied, the relation list of `buildIndex` is
exactly the `i < j` pair loop over the tagged in-scope documents with their
deduplicated normalized label sets. -/
theorem buildIndex_relations_eq (cfg : Config) (folderPath : Option (List Char))
    (files : List MdFile)
    (hnd : ((getFilesInScope cfg folderPath files).map (fun f => f.path)).Nodup)
    (hguard : ((getFilesInScope cfg folderPath files).filter
        (fun f => 0 < (parseTags f.content).length)).length ≤ cfg.maxRelationFiles) :
    (buildIndex cfg none folderPath files).relations
      = pairLoop false (((getFilesInScope cfg folderPath files).filter
          (fun f => 0 < (parseTags f.content).length)).map
          (fun f => (f.path, conceptSetOfFile f))) := by
  simp only [buildIndex]
  set ST := scanChunks none (chunksOf cfg.batchSize (getFilesInScope cfg folderPath files))
    initialScanState with hST
  have habort : abortedAt none ST.processed = false := rfl
  have hfi : ST.fileIndex
      = (getFilesInScope cfg folderPath files).map
          (fun f => (f.path, (parseTags f.content).map (fun pt => pt.tag))) := by
    rw [hST]
    exact fileIndex_of_scan cfg folderPath files hnd
  have hfwt : (ST.fileIndex.filter (fun pr => 0 < pr.2.length)).map (fun pr => pr.1)
      = ((getFilesInScope cfg folderPath files).filter
          (fun f => 0 < (parseTags f.content).length)).map (fun f => f.path) := by
    rw [hST]
    exact fwt_of_scan cfg folderPath files hnd
  rw [habort, hfwt, hfi]
  rw [if_pos ⟨rfl, by rw [List.length_map]; exact hguard⟩]
  have hpt : ∀ f ∈ (getFilesInScope cfg folderPath files).filter
      (fun f => 0 < (parseTags f.content).length),
      jsSetDedup (((alookup f.path ((getFilesInScope cfg folderPath files).map
          (fun g => (g.path, (parseTags g.content).map (fun pt => pt.tag))))).getD []).map
        (fun t => normalizeLabel t.label))
        = conceptSetOfFile f := by
    intro f hf
    rw [alookup_map_path _ _ f (List.mem_of_mem_filter hf) hnd, Option.getD_some,
      List.map_map]
    rfl
  rw [map_path_keyed _ _ _ hpt]

/-- C5: with distinct paths, no abort, and the tagged-file count within the
relation ceiling, two distinct in-scope documents sharing at least one
normalized concept give rise to exactly one cross-document relation (counting
both orientations), whose strength is `|shared| / max(|conceptsA|, |conceptsB|)`,
a value between 0 and 1 that is symmetric in the two documents. -/
theorem claim_C5_relation_pair (cfg : Config) (folderPath : Option (List Char))
    (files : List MdFile) (p q : MdFile)
    (hnd : ((getFilesInScope cfg folderPath files).map (fun f => f.path)).Nodup)
    (hguard : ((getFilesInScope cfg folderPath files).filter
        (fun f => 0 < (parseTags f.content).length)).length ≤ cfg.maxRelationFiles)
    (hp : p ∈ getFilesInScope cfg folderPath files)
    (hq : q ∈ getFilesInScope cfg folderPath files)
    (hne : p.path ≠ q.path)
    (hsh : sharedConceptsOf p q ≠ []) :
    ((buildIndex cfg none folderPath files).relations).countP (touches p.path q.path) = 1 ∧
    (∀ r ∈ (buildIndex cfg none folderPath files).relations,
        touches p.path q.path r = true → r.relationshipStrength = pairStrength p q) ∧
    0 ≤ pairStrength p q ∧ pairStrength p q ≤ 1 ∧
    pairStrength p q = pairStrength q p := by
  have hrel := buildIndex_relations_eq cfg folderPath files hnd hguard
  have hsh' : (conceptSetOfFile p).filter (fun c => c ∈ conceptSetOfFile q) ≠ [] := hsh
  obtain ⟨c, hc⟩ := List.exists_mem_of_ne_nil _ hsh
  have hc' : c ∈ (conceptSetOfFile p).filter (fun x => x ∈ conceptSetOfFile q) := hc
  have hcp : c ∈ conceptSetOfFile p := List.mem_of_mem_filter hc'
  have hcq : c ∈ conceptSetOfFile q := by
    simpa using List.of_mem_filter hc'
  have hpne : conceptSetOfFile p ≠ [] := List.ne_nil_of_mem hcp
  have hptag : 0 < (parseTags p.content).length := by
    have hcp2 : c ∈ jsSetDedup ((parseTags p.content).map
        (fun pt => normalizeLabel pt.tag.label)) := hcp
    have h1 := (mem_jsSetDedup c _).mp hcp2
    have h2 := List.length_pos.mpr (List.ne_nil_of_mem h1)
    simpa using h2
  have hqtag : 0 < (parseTags q.content).length := by
    have hcq2 : c ∈ jsSetDedup ((parseTags q.content).map
        (fun pt => normalizeLabel pt.tag.label)) := hcq
    have h1 := (mem_jsSetDedup c _).mp hcq2
    have h2 := List.length_pos.mpr (List.ne_nil_of_mem h1)
    simpa using h2
  set FL := (getFilesInScope cfg folderPath files).filter
    (fun f => 0 < (parseTags f.content).length) with hFLdef
  have hpFL : p ∈ FL := List.mem_filter.mpr ⟨hp, by simpa using hptag⟩
  have hqFL : q ∈ FL := List.mem_filter.mpr ⟨hq, by simpa using hqtag⟩
  set L := FL.map (fun f => (f.path, conceptSetOfFile f)) with hLdef
  have hpL : (p.path, conceptSetOfFile p) ∈ L := by
    rw [hLdef]
    exact List.mem_map_of_mem _ hpFL
  have hqL : (q.path, conceptSetOfFile q) ∈ L := by
    rw [hLdef]
    exact List.mem_map_of_mem _ hqFL
  have hndL : (L.map Prod.fst).Nodup := by
    rw [hLdef, List.map_map]
    have hsub : List.Sublist (FL.map (fun f => f.path))
        ((getFilesInScope cfg folderPath files).map (fun f => f.path)) := by
      rw [hFLdef]
      exact (List.filter_sublist _).map _
    exact hnd.sublist hsub
  refine ⟨?_, ?_, pairStrength_nonneg p q, pairStrength_le_one p q hpne,
    pairStrength_comm p q⟩
  · rw [hrel,
      pairLoop_countP L p.path q.path (conceptSetOfFile p) (conceptSetOfFile q)
        hne hpL hqL hndL,
      if_pos hsh']
  · rw [hrel]
    intro r hr ht
    rcases pairLoop_strength L p.path q.path (conceptSetOfFile p) (conceptSetOfFile q)
      hne hpL hqL hndL r hr ht with h | h
    · rw [h]
      rfl
    · rw [h, pairStrength_comm p q]
      rfl

/-- Witness for C5: two documents whose single annotations normalize to the same
concept label. -/
theorem claim_C5_witness :
    ((buildIndex DEFAULT_CONFIG none none [docA, docB]).relations).countP
        (touches docA.path docB.path) = 1 ∧
    (∀ r ∈ (buildIndex DEFAULT_CONFIG none none [docA, docB]).relations,
        touches docA.path docB.path r = true →
          r.relationshipStrength = pairStrength docA docB) ∧
    0 ≤ pairStrength docA docB ∧ pairStrength docA docB ≤ 1 ∧
    pairStrength docA docB = pairStrength docB docA :=
  claim_C5_relation_pair DEFAULT_CONFIG none [docA, docB] docA docB (by decide)
    (by decide) (by decide) (by decide) (by decide) (by decide)

end VaultIndexer

end SemanticAI
